import Mathlib

set_option maxRecDepth 8000

/-!
Verification of the baseband VLBI payload codec (`baseband/vlbi_base/payload.py`)
and of spec-modelled Mark5B stream/frame/header behaviour whose implementing
code is only witnessed by tests in this repository.

The embedding is a shallow one:

* 32-bit little-endian words are natural numbers, with `w < 2 ^ 32` carried as
  an explicit hypothesis where it matters;
* numpy arrays touched by `VLBIPayloadBase` are either flat lists of unsigned
  sample codes (the values the per-format lookup-table decoders/encoders map
  to and from), lists of rows (`reshape(-1, *sample_shape)` views), or an
  `NDArr` record carrying a shape, a complex-kind tag and the flat real
  components;
* fallible Python code returns `Except PyErr`.

The subclass-supplied `_decoders`/`_encoders` tables are modelled by the
bit-field extraction they all implement: a decoder for `bps` bits per sample
part splits each 32-bit word into `32 / bps` codes, least significant bits
first, and the encoder is its inverse, composed with the `.view(DTYPE_WORD)`
applied to encoder output (cf. `fromdata`).  All concrete coders of the
repository (1, 2 and 8 bits per sample) have `bps` dividing 32.
-/

/-- Python exception kinds raised by the embedded code. -/
inductive PyErr where
  | typeError (msg : String)
  | indexError (msg : String)
  | valueError (msg : String)
  deriving DecidableEq

/-- An entry of a Python tuple index: an integer or a slice (nested tuples are
not valid numpy indices). -/
inductive PyAtom where
  | int (i : Int)
  | slc (start stop step : Option Int)
  deriving DecidableEq

/-- Python index expressions accepted by `__getitem__`/`__setitem__`:
integers, slices (`None` fields allowed) and tuples. `()` is `.tup []`. -/
inductive PyIdx where
  | int (i : Int)
  | slc (start stop step : Option Int)
  | tup (items : List PyAtom)
  deriving DecidableEq

/-- The resolved `(start, stop, step)` of Python's `slice.indices(len)`. -/
def sliceIndices (a b c : Option Int) (len : Nat) : Int × Int × Int :=
  let step := c.getD 1
  let lower : Int := if 0 < step then 0 else -1
  let upper : Int := if 0 < step then (len : Int) else (len : Int) - 1
  let start := match a with
    | none => if 0 < step then lower else upper
    | some v => if v < 0 then max (v + len) lower else min v upper
  let stop := match b with
    | none => if 0 < step then upper else lower
    | some v => if v < 0 then max (v + len) lower else min v upper
  (start, stop, step)

/-- Number of elements selected by a resolved slice. -/
def sliceCount (start stop step : Int) : Nat :=
  if 0 < step then (((stop - start) + step - 1) / step).toNat
  else (((start - stop) + (-step) - 1) / (-step)).toNat

/-- The element positions selected by a resolved slice, in selection order. -/
def sliceIdxs (start stop step : Int) : List Int :=
  (List.range (sliceCount start stop step)).map (fun k : Nat => start + (k : Int) * step)

/-- Gather the rows of `l` at `idxs` (out-of-range positions give the
default; every use with a proof obligation keeps them in range). -/
def gatherD (l : List α) (d : α) (idxs : List Nat) : List α :=
  idxs.map (fun i => l.getD i d)

/-- Least-significant-first base-`b` digits, `k` of them. -/
def digitsBase (b : Nat) : Nat → Nat → List Nat
  | 0, _ => []
  | k + 1, w => (w % b) :: digitsBase b k (w / b)

/-- Recombine least-significant-first base-`b` digits into a number. -/
def undigitsBase (b : Nat) : List Nat → Nat
  | [] => 0
  | d :: ds => d + b * undigitsBase b ds

/-- Fuel-driven worker for `chunkList` (structural recursion keeps it
kernel-reducible; the fuel is always at least the list length). -/
def chunkListAux (w : Nat) : Nat → List α → List (List α)
  | _, [] => []
  | 0, _ :: _ => []
  | fuel + 1, x :: xs =>
    if w = 0 then [] else
      ((x :: xs).take w) :: chunkListAux w fuel ((x :: xs).drop w)

/-- Split a list into consecutive chunks of `w` elements (the final chunk may
be shorter when `w` does not divide the length; `w = 0` gives `[]`). -/
def chunkList (w : Nat) (l : List α) : List (List α) := chunkListAux w l.length l

/-- Decoder table entry for `bps` bits per sample part: split each 32-bit word
into `32 / bps` codes, least significant bits first.  This is the bit-field
layout all lookup-table decoders of the repository implement, up to the fixed
code-to-level table, which is injective and therefore cancels in every
round-trip and consistency statement proved here. -/
def decodeWords (bps : Nat) (ws : List Nat) : List Nat :=
  (ws.map (digitsBase (2 ^ bps) (32 / bps))).flatten

/-- Encoder table entry for `bps` bits per sample part, composed with the
`.view(DTYPE_WORD)` applied to encoder output (cf. `fromdata`): pack the flat
codes back into 32-bit words, failing (as the dtype view does) when they do
not fill whole words. -/
def encodeToWords (bps : Nat) (vs : List Nat) : Except PyErr (List Nat) :=
  if vs.length * bps % 32 = 0 then
    .ok ((chunkList (32 / bps) vs).map (undigitsBase (2 ^ bps)))
  else .error (.valueError "encoded data does not fill whole 32-bit words")

/-- Write `src[k]` into position `idxs[k]` of `rows`, for each `k` (numpy
sliced assignment along the first axis). -/
def scatterRows (rows : List α) (idxs : List Nat) (src : List α) : List α :=
  (idxs.zip src).foldl (fun acc pr => acc.set pr.1 pr.2) rows

/-- Shallow embedding of a `VLBIPayloadBase` instance: the 32-bit words, the
constructor arguments, and a tag for the concrete payload class
(`type(self)`, which `__eq__` compares). -/
structure VLBIPayloadBase where
  words : List Nat
  bps : Nat
  sample_shape : List Nat
  complex_data : Bool
  cls : String
  deriving DecidableEq

/-- Real components per full sample: `(2 if complex_data else 1) * prod(sample_shape)`. -/
def VLBIPayloadBase.sampWidth (p : VLBIPayloadBase) : Nat :=
  (if p.complex_data then 2 else 1) * p.sample_shape.prod

/-- Bits per full sample, `self._bpfs`. -/
def VLBIPayloadBase.bpfs (p : VLBIPayloadBase) : Nat := p.bps * p.sampWidth

/-- Size in bytes of the payload, `self.size` (`len(words) * 4`). -/
def VLBIPayloadBase.size (p : VLBIPayloadBase) : Nat := 4 * p.words.length

/-- Number of samples, `self.nsample = size * 8 // _bpfs` (floor division). -/
def VLBIPayloadBase.nsample (p : VLBIPayloadBase) : Nat := p.size * 8 / p.bpfs

/-- Decoded shape, `self.shape = (nsample,) + sample_shape`. -/
def VLBIPayloadBase.shape (p : VLBIPayloadBase) : List Nat :=
  p.nsample :: p.sample_shape

/-- Whether `self.dtype` is complex64 rather than float32. -/
def VLBIPayloadBase.dtypeIsComplex (p : VLBIPayloadBase) : Bool := p.complex_data

/-- The constructor `VLBIPayloadBase.__init__`: it stores the arguments,
computes `_bpfs`, and raises `ValueError` exactly when the class mandates a
fixed payload size (`cls._size is not None`) that `self.size` does not match. -/
def VLBIPayloadBase.init (words : List Nat) (bps : Nat) (sample_shape : List Nat)
    (complex_data : Bool) (cls : String) (fixedSize : Option Nat) :
    Except PyErr VLBIPayloadBase :=
  let p : VLBIPayloadBase := ⟨words, bps, sample_shape, complex_data, cls⟩
  match fixedSize with
  | some s =>
    if s ≠ p.size then .error (.valueError "Encoded data should have the fixed length")
    else .ok p
  | none => .ok p

/-- The method `__eq__`: same concrete class, same decoded shape, same dtype
and equal word arrays.  `self.words is other.words or np.all(self.words ==
other.words)` collapses to list equality under value semantics: identity
implies elementwise equality, and numpy comparison of different-length word
arrays yields an all-false result, matching list inequality. -/
def VLBIPayloadBase.pyEq (p q : VLBIPayloadBase) : Bool :=
  p.cls == q.cls && p.shape == q.shape &&
    (p.dtypeIsComplex == q.dtypeIsComplex) && p.words == q.words

/-- The `words_slice` returned by `_item_to_slices`: either `slice(None)` or a
step-one `slice(lo, hi)`. -/
inductive WSlice where
  | all
  | rng (lo hi : Int)
  deriving DecidableEq

/-- The `data_slice` returned by `_item_to_slices`: an integer row index or a
slice over the decoded rows. -/
inductive DataIdx where
  | idx (i : Int)
  | slc (start stop step : Option Int)
  deriving DecidableEq

/-- The shared tail of `_item_to_slices` once `start, stop, step, n` are
fixed (the code after the int/slice normalisation). -/
def VLBIPayloadBase.itemCore (p : VLBIPayloadBase) (isSlice : Bool)
    (start stop : Int) (stepO : Option Int) (n : Int) :
    Except PyErr (WSlice × DataIdx) :=
  if n = (p.nsample : Int) then
    .ok (.all, if isSlice then .slc none none stepO else .idx 0)
  else if p.bpfs % 32 = 0 then
    let wpfs : Int := Int.ofNat (p.bpfs / 32)
    .ok (.rng (start * wpfs) (stop * wpfs),
         if isSlice then .slc none none stepO else .idx 0)
  else if 32 % p.bpfs = 0 then
    let fspw : Int := Int.ofNat (32 / p.bpfs)
    let wStart := start.fdiv fspw
    let oStart := start.fmod fspw
    let wStop := stop.fdiv fspw
    let oStop := stop.fmod fspw
    .ok (.rng wStart (if oStop ≠ 0 then wStop + 1 else wStop),
         if isSlice then
           .slc (if oStart ≠ 0 then some oStart else none)
                (if oStop ≠ 0 then some (oStart + n) else none) stepO
         else .idx oStart)
  else
    .error (.typeError "Do not know how to extract data when full samples and words have these bits")

/-- The method `_item_to_slices`. -/
def VLBIPayloadBase.itemToSlices (p : VLBIPayloadBase) (item : PyIdx) :
    Except PyErr (WSlice × DataIdx) :=
  match item with
  | .slc a b c =>
    if c = some 0 then .error (.valueError "slice step cannot be zero")
    else
      let r := sliceIndices a b c p.nsample
      let stepO : Option Int := if r.2.2 = 1 then none else some r.2.2
      p.itemCore true r.1 r.2.1 stepO (r.2.1 - r.1)
  | .int i0 =>
    let i := if i0 < 0 then i0 + p.nsample else i0
    if ¬(0 ≤ i ∧ i < (p.nsample : Int)) then
      .error (.indexError "index out of range")
    else
      p.itemCore false i (i + 1) none 1
  | .tup _ => .error (.typeError "object can only be indexed or sliced")

/-- Resolved `(lo, hi)` bounds of a words slice over `len` words. -/
def WSlice.bounds (ws : WSlice) (len : Nat) : Nat × Nat :=
  match ws with
  | .all => (0, len)
  | .rng lo hi =>
    let l : Int := if lo < 0 then max (lo + len) 0 else min lo (len : Int)
    let h : Int := if hi < 0 then max (hi + len) 0 else min hi (len : Int)
    (l.toNat, h.toNat)

/-- The words selected by `self.words[words_slice]`. -/
def wseg (l : List α) (ws : WSlice) : List α :=
  (l.take (ws.bounds l.length).2).drop (ws.bounds l.length).1

/-- The numpy assignment `self.words[words_slice] = src`: exact length match
replaces the selection, a single element broadcasts over it, anything else
raises. -/
def npSetSeg (l : List Nat) (ws : WSlice) (src : List Nat) :
    Except PyErr (List Nat) :=
  let a := (ws.bounds l.length).1
  let b := max a (ws.bounds l.length).2
  let m := b - a
  if src.length = m then .ok (l.take a ++ src ++ l.drop b)
  else
    match src with
    | [v] => .ok (l.take a ++ List.replicate m v ++ l.drop b)
    | _ => .error (.valueError "could not broadcast input array into word slice")

/-- A numpy ndarray of decoded samples: its shape, whether its dtype kind is
complex, and the flat list of real components (two per complex element). -/
structure NDArr where
  shape : List Nat
  isC : Bool
  flat : List Nat
  deriving DecidableEq

/-- Python's `shape[-k:]` (note that `[-0:]` is the whole tuple). -/
def pyLastK (k : Nat) (l : List Nat) : List Nat :=
  if k = 0 then l else l.drop (l.length - k)

/-- Model of numpy dtype-kind handling on assignment: same-kind data is used
as is, real data assigned into a complex target fills real components and
zeroes the imaginary ones, and complex into real raises. -/
def kindCast (cx : Bool) (x : NDArr) : Except PyErr (List Nat) :=
  if x.isC = cx then .ok x.flat
  else if cx then .ok ((x.flat.map (fun v => [v, 0])).flatten)
  else .error (.typeError "cannot convert complex values to real")

/-- Model of numpy broadcasting on assignment, to the extent the payload
methods exercise it: the source either matches the target shape exactly or is
replicated along missing leading axes (scalars included).  The size-one-axis
broadcast forms are not reachable from the payload methods. -/
def broadcastFlat (tshape : List Nat) (cx : Bool) (x : NDArr) :
    Except PyErr (List Nat) :=
  if x.shape = tshape then kindCast cx x
  else
    match tshape with
    | [] => .error (.valueError "could not broadcast input array")
    | m :: rest =>
      if x.shape.length < rest.length + 1 then
        (broadcastFlat rest cx x).map (fun r => (List.replicate m r).flatten)
      else .error (.valueError "could not broadcast input array")

/-- Real components per row of a decoded `(-1, *sample_shape)` view. -/
def rowPitch (cx : Bool) (ss : List Nat) : Nat := (if cx then 2 else 1) * ss.prod

/-- The selection `[data_slice]` applied to the decoded
`reshape(-1, *sample_shape)` rows by `__getitem__`. -/
def npSelectRows (rows : List (List Nat)) (ds : DataIdx) (cx : Bool)
    (ss : List Nat) : Except PyErr NDArr :=
  match ds with
  | .idx i0 =>
    let i := if i0 < 0 then i0 + rows.length else i0
    if ¬(0 ≤ i ∧ i < (rows.length : Int)) then
      .error (.indexError "index out of range")
    else .ok ⟨ss, cx, rows.getD i.toNat []⟩
  | .slc a b c =>
    if c = some 0 then .error (.valueError "slice step cannot be zero")
    else
      let r := sliceIndices a b c rows.length
      let idxs := sliceIdxs r.1 r.2.1 r.2.2
      .ok ⟨idxs.length :: ss, cx, (gatherD rows [] (idxs.map Int.toNat)).flatten⟩

/-- The assignment `current_data[data_slice] = data` performed by the general
path of `__setitem__` on the decoded rows. -/
def npAssignRows (rows : List (List Nat)) (ds : DataIdx) (cx : Bool)
    (ss : List Nat) (x : NDArr) : Except PyErr (List (List Nat)) :=
  match ds with
  | .idx i0 =>
    let i := if i0 < 0 then i0 + rows.length else i0
    if ¬(0 ≤ i ∧ i < (rows.length : Int)) then
      .error (.indexError "index out of range")
    else
      (broadcastFlat ss cx x).map (fun r => rows.set i.toNat r)
  | .slc a b c =>
    if c = some 0 then .error (.valueError "slice step cannot be zero")
    else
      let r := sliceIndices a b c rows.length
      let idxs := sliceIdxs r.1 r.2.1 r.2.2
      (broadcastFlat (idxs.length :: ss) cx x).map
        (fun flat => scatterRows rows (idxs.map Int.toNat) (chunkList (rowPitch cx ss) flat))

/-- The method `__getitem__` (also the `data` property, via the full item). -/
def VLBIPayloadBase.getItem (p : VLBIPayloadBase) (item : PyIdx) :
    Except PyErr NDArr :=
  if item = .tup [] ∨ item = .slc none none none then
    let vals := decodeWords p.bps p.words
    if vals.length = p.nsample * p.sampWidth then
      .ok ⟨p.shape, p.complex_data, vals⟩
    else .error (.valueError "cannot reshape decoded data to payload shape")
  else
    match p.itemToSlices item with
    | .error e => .error e
    | .ok (ws, ds) =>
      let vals := decodeWords p.bps (wseg p.words ws)
      if p.sampWidth = 0 ∨ ¬(p.sampWidth ∣ vals.length) then
        .error (.valueError "cannot reshape decoded data to sample shape")
      else
        npSelectRows (chunkList p.sampWidth vals) ds p.complex_data p.sample_shape

/-- The direct-encode fast path of `__setitem__` (no decode round-trip):
`encoder(data.ravel())` written straight into the word slice. -/
def VLBIPayloadBase.setEncodeFast (p : VLBIPayloadBase) (x : NDArr) :
    Except PyErr (List Nat) :=
  encodeToWords p.bps x.flat

/-- The general decode-modify-encode path of `__setitem__`. -/
def VLBIPayloadBase.setEncodeSlow (p : VLBIPayloadBase) (ws : WSlice)
    (ds : DataIdx) (x : NDArr) : Except PyErr (List Nat) :=
  let vals := decodeWords p.bps (wseg p.words ws)
  if p.sampWidth = 0 ∨ ¬(p.sampWidth ∣ vals.length) then
    .error (.valueError "cannot reshape decoded data to sample shape")
  else
    match npAssignRows (chunkList p.sampWidth vals) ds p.complex_data p.sample_shape x with
    | .error e => .error e
    | .ok rows2 => encodeToWords p.bps rows2.flatten

/-- The fast-path guard of `__setitem__`: the data slice covers the decoded
range, the trailing dimensions already match `sample_shape`, and the dtype
kind matches. -/
def VLBIPayloadBase.fastCond (p : VLBIPayloadBase) (ds : DataIdx) (x : NDArr) : Bool :=
  ds == DataIdx.slc none none none &&
    pyLastK p.sample_shape.length x.shape == p.sample_shape &&
    (x.isC == p.complex_data)

/-- The method `__setitem__`. -/
def VLBIPayloadBase.setItem (p : VLBIPayloadBase) (item : PyIdx) (x : NDArr) :
    Except PyErr VLBIPayloadBase :=
  let wsds := if item = .tup [] ∨ item = .slc none none none
              then Except.ok (WSlice.all, DataIdx.slc none none none)
              else p.itemToSlices item
  match wsds with
  | .error e => .error e
  | .ok (ws, ds) =>
    match (if p.fastCond ds x then p.setEncodeFast x else p.setEncodeSlow ws ds x) with
    | .error e => .error e
    | .ok enc =>
      match npSetSeg p.words ws enc with
      | .error e => .error e
      | .ok words2 => .ok { p with words := words2 }

/-- The method `__setitem__` with the fast-path guard removed, i.e. the
general decode-modify-encode path applied unconditionally: the reference
behaviour the optimisation is claimed to coincide with. -/
def VLBIPayloadBase.setItemGeneral (p : VLBIPayloadBase) (item : PyIdx) (x : NDArr) :
    Except PyErr VLBIPayloadBase :=
  let wsds := if item = .tup [] ∨ item = .slc none none none
              then Except.ok (WSlice.all, DataIdx.slc none none none)
              else p.itemToSlices item
  match wsds with
  | .error e => .error e
  | .ok (ws, ds) =>
    match p.setEncodeSlow ws ds x with
    | .error e => .error e
    | .ok enc =>
      match npSetSeg p.words ws enc with
      | .error e => .error e
      | .ok words2 => .ok { p with words := words2 }

/-- Well-formedness carried as theorem hypotheses: positive bits per sample
dividing the 32-bit word width (true of every coder in the repository), a
positive sample-shape product, a size made of whole samples, and words in
32-bit range. -/
def VLBIPayloadBase.WF (p : VLBIPayloadBase) : Prop :=
  0 < p.bps ∧ p.bps ∣ 32 ∧ 0 < p.sample_shape.prod ∧
    p.bpfs ∣ p.size * 8 ∧ ∀ w ∈ p.words, w < 2 ^ 32

/-- A well-formed ndarray of decoded-level codes for a payload with `bps`
bits per sample part: consistent flat length and representable values. -/
def NDArr.Rep (bps : Nat) (x : NDArr) : Prop :=
  x.flat.length = x.shape.prod * (if x.isC then 2 else 1) ∧
    ∀ v ∈ x.flat, v < 2 ^ bps

instance [DecidableEq ε] [DecidableEq α] : DecidableEq (Except ε α) := fun a b =>
  match a, b with
  | .ok x, .ok y =>
    if h : x = y then isTrue (by rw [h]) else isFalse (fun hc => h (Except.ok.inj hc))
  | .ok _, .error _ => isFalse (fun hc => Except.noConfusion hc)
  | .error _, .ok _ => isFalse (fun hc => Except.noConfusion hc)
  | .error e, .error f =>
    if h : e = f then isTrue (by rw [h]) else isFalse (fun hc => h (Except.error.inj hc))

/-- The payload built in `TestVLBIBase.setup`: two words, 8 bits per sample,
two channels, real data. -/
def payloadTest8 : VLBIPayloadBase :=
  ⟨[0x12345678, 0xffff0000], 8, [2], false, "Payload"⟩

/-- The payload `self.payload1bit` of `TestVLBIBase.setup`: five words, one
bit per sample part, five channels, complex data (bits per full sample 10,
neither a multiple nor a divisor of 32). -/
def payloadTest1bit : VLBIPayloadBase :=
  ⟨[0x12345678, 0x12345678, 0x12345678, 0x12345678, 0x12345678], 1, [5], true, "Payload"⟩

/-!
Mark5B frame, header-time and stream behaviour.  The implementing modules of
the `mark5b` package are not part of this source tree (only their test suite
is), so the definitions below are modelled from the specification, with
constants taken from the test assertions where the tests pin them down.
-/

/-- Modelled from the spec: the fixed invalid-payload bit pattern that
`Mark5BFrame.fromdata` writes into every payload word when constructed with
`valid=False`.  The value is pinned down by the repository's own test
(`test_frame`: `assert np.all(frame6.payload.words == 0x11223344)`). -/
def m5bInvalidPattern : Nat := 0x11223344

/-- Modelled from the spec: the payload words of a frame built by
`Mark5BFrame.fromdata`: the encoded data words, except that `valid=False`
overwrites every word with the fixed invalid pattern at construction time. -/
def m5bFromdataPayloadWords (encoded : List Nat) (valid : Bool) : List Nat :=
  if valid then encoded else List.replicate encoded.length m5bInvalidPattern

/-- Modelled from the spec: `Mark5BHeader.get_time(frame_rate, frame_nr)`
specialised to an integer-second timestamp `intSec` and the on-disk
fractional-second field `fracField` (in units of 1/10000 s).  With a frame
rate, the sub-second part is reconstructed from the frame number; without
one, a nonzero fractional field is used directly, and a zero fractional
field is resolvable only for `frame_nr = 0` (the integer second), any other
frame number raising ValueError. -/
def m5bGetTime (intSec fracField : Nat) (frameRate : Option ℚ) (frameNr : Nat) :
    Except PyErr ℚ :=
  match frameRate with
  | some rate => .ok ((intSec : ℚ) + (frameNr : ℚ) / rate)
  | none =>
    if fracField ≠ 0 then .ok ((intSec : ℚ) + (fracField : ℚ) / 10000)
    else if frameNr = 0 then .ok (intSec : ℚ)
    else .error (.valueError "cannot calculate time without frame rate")

/-- Modelled from the spec: the stream metadata a Mark5B writer needs to
regenerate headers (start day/seconds, user field, internal-TVG flag,
starting frame number, frames per second). -/
structure M5BMeta where
  day : Nat
  sec0 : Nat
  user : Nat
  itvg : Bool
  frameNr0 : Nat
  framesPerSec : Nat
  deriving DecidableEq

/-- Pack the low `k` decimal digits of `n` as 4-bit BCD nibbles, least
significant digit first. -/
def bcdDigits : Nat → Nat → Nat
  | 0, _ => 0
  | k + 1, n => n % 10 + 16 * bcdDigits k (n / 10)

/-- Modelled from the spec: the four header words of frame `k` of a Mark5B
stream, a deterministic function of the stream metadata and the frame index:
the sync word, the user/TVG/frame-number word, the BCD day and seconds-of-day
word, and the BCD fractional-second word (the CRC field, which is likewise a
deterministic function of the other fields, is not separately modelled). -/
def m5bHeaderWords (m : M5BMeta) (k : Nat) : List Nat :=
  let fn := m.frameNr0 + k
  [0xABADDEED,
   m.user % 2 ^ 16 * 2 ^ 16 + (if m.itvg then 2 ^ 15 else 0) + fn % 2 ^ 15,
   bcdDigits 3 m.day % 2 ^ 12 * 2 ^ 20 +
     bcdDigits 5 (m.sec0 + fn / m.framesPerSec) % 2 ^ 20,
   bcdDigits 4 (fn % m.framesPerSec * 10000 / m.framesPerSec) * 2 ^ 16]

/-- Modelled from the spec: the 2-bit lookup-table decoder levels for codes
0-3, scaled by 10^4 to integers: `-3.3359, +1.0, -1.0, +3.3359` (byte `0x00`
decodes to the low magnitude level, `0x55` to +1, `0xAA` to -1, `0xFF` to
the high magnitude level). -/
def m5bLut2 (c : Nat) : Int :=
  [(-33359 : Int), 10000, -10000, 33359].getD c 0

/-- Modelled from the spec: the 2-bit encoder, mapping each level back to
its code (values at or beyond the high threshold map to code 3). -/
def m5bCode (v : Int) : Nat :=
  if v = -33359 then 0 else if v = 10000 then 1 else if v = -10000 then 2 else 3

/-- Serialise 32-bit words to bytes, least significant byte first. -/
def wordsToBytes (ws : List Nat) : List Nat :=
  (ws.map (digitsBase 256 4)).flatten

/-- Parse little-endian bytes into 32-bit words. -/
def bytesToWords (bs : List Nat) : List Nat :=
  (chunkList 4 bs).map (undigitsBase 256)

/-- Modelled from the spec: decode one frame's payload words into sample
levels (16 two-bit codes per word, least significant bits first, mapped
through the lookup table). -/
def m5bDecodeFrame (ws : List Nat) : List Int :=
  (decodeWords 2 ws).map m5bLut2

/-- Modelled from the spec: encode a frame's worth of sample levels back
into payload words. -/
def m5bEncodeSamples (vals : List Int) : Except PyErr (List Nat) :=
  encodeToWords 2 (vals.map m5bCode)

/-- Modelled from the spec: the byte sequence of a conformant Mark5B file —
consecutive frames, each a regenerated header followed by its payload
words, serialised to bytes. -/
def m5bFrames (m : M5BMeta) : Nat → List (List Nat) → List Nat
  | _, [] => []
  | k, pw :: rest => wordsToBytes (m5bHeaderWords m k ++ pw) ++ m5bFrames m (k + 1) rest

/-- Modelled from the spec: the reader's frame parser — split the byte
stream into fixed-size frames (16 header bytes plus `4 * W` payload bytes)
and recover each frame's payload words. -/
def m5bParsePayloads (W : Nat) (bytes : List Nat) : List (List Nat) :=
  (chunkList (4 * (4 + W)) bytes).map (fun fr => bytesToWords (fr.drop 16))

/-- Modelled from the spec: the stream reader — parse all frames and
concatenate their decoded sample levels. -/
def m5bReadStreamBytes (W : Nat) (bytes : List Nat) : List Int :=
  ((m5bParsePayloads W bytes).map m5bDecodeFrame).flatten

/-- Modelled from the spec: the stream writer's frame loop — encode each
frame-sized chunk of samples and emit a regenerated header followed by the
encoded payload. -/
def m5bWriteFrames (m : M5BMeta) : Nat → List (List Int) → Except PyErr (List Nat)
  | _, [] => .ok []
  | k, ch :: rest =>
    match m5bEncodeSamples ch with
    | .error e => .error e
    | .ok ws =>
      match m5bWriteFrames m (k + 1) rest with
      | .error e => .error e
      | .ok bs => .ok (wordsToBytes (m5bHeaderWords m k ++ ws) ++ bs)

/-- Modelled from the spec: the stream writer — split the samples into
frame-sized chunks (16 codes per word, `W` words per frame) and write the
frames. -/
def m5bWriteStream (m : M5BMeta) (W : Nat) (samples : List Int) :
    Except PyErr (List Nat) :=
  m5bWriteFrames m 0 (chunkList (16 * W) samples)

theorem chunkListAux_congr (w : Nat) :
    ∀ (f1 f2 : Nat) (l : List α), l.length ≤ f1 → l.length ≤ f2 →
      chunkListAux w f1 l = chunkListAux w f2 l := by
  intro f1
  induction f1 with
  | zero =>
    intro f2 l h1 _
    have hl : l = [] := List.length_eq_zero.mp (Nat.le_zero.mp h1)
    subst hl
    cases f2 <;> rfl
  | succ f1 ih =>
    intro f2 l h1 h2
    cases l with
    | nil => cases f2 <;> rfl
    | cons x xs =>
      cases f2 with
      | zero => simp at h2
      | succ f2 =>
        simp only [chunkListAux]
        by_cases hw : w = 0
        · simp [hw]
        · rw [if_neg hw, if_neg hw]
          have hlen : ((x :: xs).drop w).length ≤ f1 := by
            simp only [List.length_drop, List.length_cons]
            simp only [List.length_cons] at h1
            omega
          have hlen2 : ((x :: xs).drop w).length ≤ f2 := by
            simp only [List.length_drop, List.length_cons]
            simp only [List.length_cons] at h2
            omega
          rw [ih f2 _ hlen hlen2]

theorem chunkList_nil (w : Nat) : chunkList w ([] : List α) = [] := rfl

theorem chunkList_cons (w : Nat) (hw : w ≠ 0) (x : α) (xs : List α) :
    chunkList w (x :: xs) = ((x :: xs).take w) :: chunkList w ((x :: xs).drop w) := by
  show chunkListAux w (xs.length + 1) (x :: xs) = _
  simp only [chunkListAux, if_neg hw]
  rw [chunkList]
  congr 1
  refine chunkListAux_congr w xs.length ((x :: xs).drop w).length _ ?_ (Nat.le_refl _)
  simp only [List.length_drop, List.length_cons]
  omega

theorem chunkList_of_ne_nil (w : Nat) (hw : w ≠ 0) (l : List α) (hl : l ≠ []) :
    chunkList w l = (l.take w) :: chunkList w (l.drop w) := by
  cases l with
  | nil => exact absurd rfl hl
  | cons x xs => exact chunkList_cons w hw x xs

/-- Joining the chunks gives the list back (for `w ≠ 0`). -/
theorem flatten_chunkList (w : Nat) (hw : w ≠ 0) (l : List α) :
    (chunkList w l).flatten = l := by
  generalize hn : l.length = n
  induction n using Nat.strong_induction_on generalizing l with
  | _ n ih =>
    cases l with
    | nil => simp [chunkList_nil]
    | cons x xs =>
      rw [chunkList_cons w hw x xs]
      simp only [List.flatten_cons]
      have hlt : ((x :: xs).drop w).length < n := by
        subst hn
        simp only [List.length_drop, List.length_cons]
        omega
      rw [ih _ hlt _ rfl]
      exact List.take_append_drop w (x :: xs)

/-- Chunking a flatten of uniform-length rows gives the rows back. -/
theorem chunkList_flatten_uniform (w : Nat) (hw : w ≠ 0) (rows : List (List α))
    (hrows : ∀ r ∈ rows, r.length = w) :
    chunkList w rows.flatten = rows := by
  induction rows with
  | nil => simp [chunkList_nil]
  | cons r rs ih =>
    have hr : r.length = w := hrows r (List.mem_cons_self r rs)
    have hrs : ∀ x ∈ rs, x.length = w := fun x hx => hrows x (List.mem_cons_of_mem r hx)
    simp only [List.flatten_cons]
    have hnil : r ++ rs.flatten ≠ [] := by
      intro hcontra
      rcases List.append_eq_nil.mp hcontra with ⟨h1, _⟩
      rw [h1] at hr
      simp at hr
      exact hw hr.symm
    rw [chunkList_of_ne_nil w hw _ hnil]
    have ht : (r ++ rs.flatten).take w = r := by
      rw [← hr]
      exact List.take_left r rs.flatten
    have hd : (r ++ rs.flatten).drop w = rs.flatten := by
      rw [← hr]
      exact List.drop_left r rs.flatten
    rw [ht, hd, ih hrs]

/-- When `w` divides the length, every chunk has length exactly `w`. -/
theorem chunkList_uniform_of_dvd (w : Nat) (hw : w ≠ 0) (l : List α)
    (hdvd : w ∣ l.length) : ∀ r ∈ chunkList w l, r.length = w := by
  generalize hn : l.length = n
  induction n using Nat.strong_induction_on generalizing l with
  | _ n ih =>
    cases l with
    | nil => simp [chunkList_nil]
    | cons x xs =>
      rw [chunkList_cons w hw x xs]
      rcases hdvd with ⟨c, hc⟩
      have hc1 : 1 ≤ c := by
        by_contra hn1
        push_neg at hn1
        have hc0 : c = 0 := by omega
        rw [hc0, Nat.mul_zero] at hc
        simp at hc
      have hwle : w ≤ (x :: xs).length := by
        rw [hc]
        calc w = w * 1 := (Nat.mul_one w).symm
          _ ≤ w * c := Nat.mul_le_mul_left w hc1
      intro r hr
      rcases List.mem_cons.mp hr with h1 | h2
      · subst h1
        simp only [List.length_take, List.length_cons]
        simp only [List.length_cons] at hwle
        omega
      · have hlt : ((x :: xs).drop w).length < n := by
          subst hn
          simp only [List.length_drop, List.length_cons]
          omega
        refine ih _ hlt _ ⟨c - 1, ?_⟩ rfl r h2
        simp only [List.length_drop, hc]
        cases c with
        | zero => omega
        | succ k =>
          simp only [Nat.succ_sub_one, Nat.mul_succ]
          omega

/-- The chunk count times `w` recovers the length when `w` divides it. -/
theorem chunkList_count_mul (w : Nat) (hw : w ≠ 0) (l : List α)
    (hdvd : w ∣ l.length) : (chunkList w l).length * w = l.length := by
  generalize hn : l.length = n
  induction n using Nat.strong_induction_on generalizing l with
  | _ n ih =>
    cases l with
    | nil =>
      rw [chunkList_nil]
      simp only [List.length_nil] at hn ⊢
      omega
    | cons x xs =>
      rw [chunkList_cons w hw x xs]
      rcases hdvd with ⟨c, hc⟩
      have hc1 : 1 ≤ c := by
        by_contra hn1
        push_neg at hn1
        have hc0 : c = 0 := by omega
        rw [hc0, Nat.mul_zero] at hc
        simp at hc
      have hwle : w ≤ (x :: xs).length := by
        rw [hc]
        calc w = w * 1 := (Nat.mul_one w).symm
          _ ≤ w * c := Nat.mul_le_mul_left w hc1
      have hlt : ((x :: xs).drop w).length < n := by
        subst hn
        simp only [List.length_drop, List.length_cons]
        omega
      have hdvd' : w ∣ ((x :: xs).drop w).length := by
        refine ⟨c - 1, ?_⟩
        simp only [List.length_drop, hc]
        cases c with
        | zero => omega
        | succ k =>
          simp only [Nat.succ_sub_one, Nat.mul_succ]
          omega
      have hrec := ih _ hlt _ hdvd' rfl
      simp only [List.length_drop] at hrec
      simp only [List.length_cons]
      rw [Nat.add_mul, Nat.one_mul, hrec]
      simp only [List.length_cons] at hwle hn ⊢
      omega

theorem digitsBase_length (b k w : Nat) : (digitsBase b k w).length = k := by
  induction k generalizing w with
  | zero => rfl
  | succ k ih => simp [digitsBase, ih]

theorem mem_digitsBase_lt (b k w : Nat) (hb : 0 < b) :
    ∀ d ∈ digitsBase b k w, d < b := by
  induction k generalizing w with
  | zero => simp [digitsBase]
  | succ k ih =>
    intro d hd
    rcases List.mem_cons.mp hd with h1 | h2
    · rw [h1]
      exact Nat.mod_lt w hb
    · exact ih (w / b) d h2

theorem undigitsBase_digitsBase (b k w : Nat) (hw : w < b ^ k) :
    undigitsBase b (digitsBase b k w) = w := by
  induction k generalizing w with
  | zero =>
    simp only [Nat.pow_zero, Nat.lt_one_iff] at hw
    simp [digitsBase, undigitsBase, hw]
  | succ k ih =>
    rcases Nat.eq_zero_or_pos b with hb0 | hb
    · rw [hb0] at hw
      simp [Nat.pow_succ] at hw
    · have hdiv : w / b < b ^ k := by
        rw [Nat.div_lt_iff_lt_mul hb]
        rw [Nat.pow_succ] at hw
        exact hw
      simp only [digitsBase, undigitsBase, ih (w / b) hdiv]
      exact Nat.mod_add_div w b

theorem digitsBase_undigitsBase (b : Nat) (ds : List Nat) (h : ∀ d ∈ ds, d < b) :
    digitsBase b ds.length (undigitsBase b ds) = ds := by
  induction ds with
  | nil => rfl
  | cons d ds ih =>
    have hd : d < b := h d (List.mem_cons_self d ds)
    have hb : 0 < b := Nat.lt_of_le_of_lt (Nat.zero_le d) hd
    simp only [List.length_cons, digitsBase, undigitsBase]
    have hmod : (d + b * undigitsBase b ds) % b = d := by
      rw [Nat.add_mul_mod_self_left, Nat.mod_eq_of_lt hd]
    have hdiv : (d + b * undigitsBase b ds) / b = undigitsBase b ds := by
      rw [Nat.add_mul_div_left _ _ hb, Nat.div_eq_of_lt hd, Nat.zero_add]
    rw [hmod, hdiv, ih (fun x hx => h x (List.mem_cons_of_mem d hx))]

theorem undigitsBase_lt (b : Nat) (hb : 0 < b) (ds : List Nat)
    (h : ∀ d ∈ ds, d < b) : undigitsBase b ds < b ^ ds.length := by
  induction ds with
  | nil => simp [undigitsBase]
  | cons d ds ih =>
    have hd : d < b := h d (List.mem_cons_self d ds)
    have hrec := ih (fun x hx => h x (List.mem_cons_of_mem d hx))
    simp only [undigitsBase, List.length_cons, Nat.pow_succ]
    calc d + b * undigitsBase b ds
        < b * (undigitsBase b ds + 1) := by
          rw [Nat.mul_succ]
          omega
      _ ≤ b * b ^ ds.length := Nat.mul_le_mul_left b hrec
      _ = b ^ ds.length * b := Nat.mul_comm b (b ^ ds.length)

theorem decodeWords_length (bps : Nat) (ws : List Nat) :
    (decodeWords bps ws).length = ws.length * (32 / bps) := by
  induction ws with
  | nil => simp [decodeWords]
  | cons w ws ih =>
    simp only [decodeWords, List.map_cons, List.flatten_cons, List.length_append,
      digitsBase_length, List.length_cons]
    simp only [decodeWords] at ih
    rw [ih]
    ring

theorem mem_decodeWords_lt (bps : Nat) (ws : List Nat) :
    ∀ v ∈ decodeWords bps ws, v < 2 ^ bps := by
  intro v hv
  simp only [decodeWords, List.mem_flatten, List.mem_map] at hv
  rcases hv with ⟨l, ⟨w, _, hl⟩, hvl⟩
  rw [← hl] at hvl
  exact mem_digitsBase_lt _ _ _ (Nat.pos_pow_of_pos bps (by omega)) v hvl

theorem vpw_pos (bps : Nat) (h0 : 0 < bps) (hdvd : bps ∣ 32) : 0 < 32 / bps :=
  Nat.div_pos (Nat.le_of_dvd (by omega) hdvd) h0

theorem bps_mul_vpw (bps : Nat) (hdvd : bps ∣ 32) : bps * (32 / bps) = 32 :=
  Nat.mul_div_cancel' hdvd

/-- Encoding the decode of in-range words gives the words back. -/
theorem encodeToWords_decodeWords (bps : Nat) (h0 : 0 < bps) (hdvd : bps ∣ 32)
    (ws : List Nat) (hws : ∀ w ∈ ws, w < 2 ^ 32) :
    encodeToWords bps (decodeWords bps ws) = .ok ws := by
  have hvpw : 0 < 32 / bps := vpw_pos bps h0 hdvd
  have hlen : (decodeWords bps ws).length * bps % 32 = 0 := by
    rw [decodeWords_length, Nat.mul_assoc, Nat.mul_comm (32 / bps) bps,
      bps_mul_vpw bps hdvd]
    exact Nat.mul_mod_left ws.length 32
  have huni : ∀ r ∈ ws.map (digitsBase (2 ^ bps) (32 / bps)), r.length = 32 / bps := by
    intro r hr
    rcases List.mem_map.mp hr with ⟨w, _, hw⟩
    rw [← hw, digitsBase_length]
  rw [encodeToWords, if_pos hlen, decodeWords,
    chunkList_flatten_uniform (32 / bps) hvpw.ne' _ huni, List.map_map]
  congr 1
  have hmap : ∀ w ∈ ws,
      (undigitsBase (2 ^ bps) ∘ digitsBase (2 ^ bps) (32 / bps)) w = id w := by
    intro w hw
    have hw32 : w < (2 ^ bps) ^ (32 / bps) := by
      rw [← Nat.pow_mul, bps_mul_vpw bps hdvd]
      exact hws w hw
    exact undigitsBase_digitsBase _ _ _ hw32
  rw [List.map_congr_left hmap, List.map_id]

theorem vpw_dvd_of_mul_mod (bps vsl : Nat) (h0 : 0 < bps) (hdvd : bps ∣ 32)
    (h : vsl * bps % 32 = 0) : (32 / bps) ∣ vsl := by
  rcases hdvd with ⟨q, hq⟩
  have hq' : 32 / bps = q := by
    rw [hq]
    exact Nat.mul_div_cancel_left q h0
  have h32 : (32 : Nat) ∣ vsl * bps := Nat.dvd_of_mod_eq_zero h
  rw [hq] at h32
  rcases h32 with ⟨k, hk⟩
  rw [hq']
  refine ⟨k, ?_⟩
  have hfin : vsl * bps = (q * k) * bps := by
    rw [hk]
    ring
  exact Nat.eq_of_mul_eq_mul_right h0 hfin

/-- Decoding the words an encode produced gives the codes back. -/
theorem decodeWords_encodeVal (bps : Nat) (h0 : 0 < bps) (hdvd : bps ∣ 32)
    (vs : List Nat) (hvs : ∀ v ∈ vs, v < 2 ^ bps) (hdl : (32 / bps) ∣ vs.length) :
    decodeWords bps ((chunkList (32 / bps) vs).map (undigitsBase (2 ^ bps))) = vs := by
  have hvpw : 0 < 32 / bps := vpw_pos bps h0 hdvd
  rw [decodeWords, List.map_map]
  have hmap : ∀ r ∈ chunkList (32 / bps) vs,
      (digitsBase (2 ^ bps) (32 / bps) ∘ undigitsBase (2 ^ bps)) r = id r := by
    intro r hr
    have hlen : r.length = 32 / bps :=
      chunkList_uniform_of_dvd (32 / bps) hvpw.ne' vs hdl r hr
    have hmem : ∀ d ∈ r, d < 2 ^ bps := by
      intro d hd
      have : d ∈ (chunkList (32 / bps) vs).flatten := by
        rw [List.mem_flatten]
        exact ⟨r, hr, hd⟩
      rw [flatten_chunkList (32 / bps) hvpw.ne' vs] at this
      exact hvs d this
    have := digitsBase_undigitsBase (2 ^ bps) r hmem
    rw [hlen] at this
    simpa using this
  rw [List.map_congr_left hmap, List.map_id, flatten_chunkList (32 / bps) hvpw.ne' vs]

/-- The word list an encode produces, with its defining equation. -/
theorem encodeToWords_ok (bps : Nat) (vs : List Nat)
    (hlen : vs.length * bps % 32 = 0) :
    encodeToWords bps vs = .ok ((chunkList (32 / bps) vs).map (undigitsBase (2 ^ bps))) := by
  rw [encodeToWords, if_pos hlen]

theorem encodeToWords_ok_length (bps : Nat) (h0 : 0 < bps) (hdvd : bps ∣ 32)
    (vs : List Nat) (hdl : (32 / bps) ∣ vs.length) :
    ((chunkList (32 / bps) vs).map (undigitsBase (2 ^ bps))).length * (32 / bps) = vs.length := by
  rw [List.length_map]
  exact chunkList_count_mul (32 / bps) (vpw_pos bps h0 hdvd).ne' vs hdl

theorem scatterRows_nil_idxs (rows : List α) (src : List α) :
    scatterRows rows [] src = rows := rfl

theorem scatterRows_nil_src (rows : List α) (idxs : List Nat) :
    scatterRows rows idxs [] = rows := by
  cases idxs <;> rfl

theorem scatterRows_cons (rows : List α) (i : Nat) (idxs : List Nat)
    (s : α) (src : List α) :
    scatterRows rows (i :: idxs) (s :: src) = scatterRows (rows.set i s) idxs src := rfl

theorem scatterRows_length (rows : List α) (idxs : List Nat) (src : List α) :
    (scatterRows rows idxs src).length = rows.length := by
  induction idxs generalizing rows src with
  | nil => rfl
  | cons i is ih =>
    cases src with
    | nil => rfl
    | cons s ss =>
      rw [scatterRows_cons, ih]
      exact List.length_set rows i s

theorem getD_set_ne (l : List α) (i j : Nat) (hne : i ≠ j) (a d : α) :
    (l.set i a).getD j d = l.getD j d := by
  induction l generalizing i j with
  | nil => rfl
  | cons x xs ih =>
    cases i with
    | zero =>
      cases j with
      | zero => exact absurd rfl hne
      | succ j => simp [List.set, List.getD_cons_succ]
    | succ i =>
      cases j with
      | zero => simp [List.set, List.getD_cons_zero]
      | succ j =>
        simp only [List.set, List.getD_cons_succ]
        exact ih i j (fun h => hne (by rw [h]))

theorem getD_set_self (l : List α) (i : Nat) (hi : i < l.length) (a d : α) :
    (l.set i a).getD i d = a := by
  induction l generalizing i with
  | nil => simp at hi
  | cons x xs ih =>
    cases i with
    | zero => simp [List.set, List.getD_cons_zero]
    | succ i =>
      simp only [List.set, List.getD_cons_succ]
      exact ih i (by simpa using hi)

theorem set_getD_self (l : List α) (i : Nat) (hi : i < l.length) (d : α) :
    l.set i (l.getD i d) = l := by
  induction l generalizing i with
  | nil => rfl
  | cons x xs ih =>
    cases i with
    | zero => simp [List.set, List.getD_cons_zero]
    | succ i =>
      simp only [List.getD_cons_succ, List.set, List.cons.injEq, true_and]
      exact ih i (by simpa using hi)

theorem scatterRows_set_comm (rows : List α) (idxs : List Nat) (src : List α)
    (i : Nat) (a : α) (hnot : i ∉ idxs) :
    (scatterRows rows idxs src).set i a = scatterRows (rows.set i a) idxs src := by
  induction idxs generalizing rows src with
  | nil => rfl
  | cons j js ih =>
    cases src with
    | nil => rfl
    | cons s ss =>
      rw [scatterRows_cons, scatterRows_cons]
      have hij : i ≠ j := fun h => hnot (h ▸ List.mem_cons_self j js)
      have hnot' : i ∉ js := fun h => hnot (List.mem_cons_of_mem j h)
      rw [ih _ _ hnot']
      congr 1
      exact List.set_comm s a rows hij.symm

theorem getD_scatterRows_notmem (rows : List α) (idxs : List Nat) (src : List α)
    (j : Nat) (d : α) (hnot : j ∉ idxs) :
    (scatterRows rows idxs src).getD j d = rows.getD j d := by
  induction idxs generalizing rows src with
  | nil => rfl
  | cons i is ih =>
    cases src with
    | nil => rfl
    | cons s ss =>
      rw [scatterRows_cons]
      have hji : i ≠ j := fun h => hnot (h ▸ List.mem_cons_self i is)
      have hnot' : j ∉ is := fun h => hnot (List.mem_cons_of_mem i h)
      rw [ih _ _ hnot', getD_set_ne _ _ _ hji]

/-- Reading back the scattered rows at the scattered indices. -/
theorem gatherD_scatterRows (rows : List α) (idxs : List Nat) (src : List α)
    (d : α) (hnd : idxs.Nodup) (hrange : ∀ i ∈ idxs, i < rows.length)
    (hlen : src.length = idxs.length) :
    gatherD (scatterRows rows idxs src) d idxs = src := by
  induction idxs generalizing rows src with
  | nil =>
    cases src with
    | nil => rfl
    | cons s ss => simp at hlen
  | cons i is ih =>
    cases src with
    | nil => simp at hlen
    | cons s ss =>
      rw [scatterRows_cons]
      have hni : i ∉ is := (List.nodup_cons.mp hnd).1
      have hnd' : is.Nodup := (List.nodup_cons.mp hnd).2
      have hi : i < rows.length := hrange i (List.mem_cons_self i is)
      simp only [gatherD, List.map_cons]
      have hhead : (scatterRows (rows.set i s) is ss).getD i d = s := by
        rw [getD_scatterRows_notmem _ _ _ _ _ hni]
        exact getD_set_self rows i hi s d
      have htail : gatherD (scatterRows (rows.set i s) is ss) d is = ss := by
        refine ih _ _ hnd' ?_ (by simpa using hlen)
        intro x hx
        rw [List.length_set]
        exact hrange x (List.mem_cons_of_mem i hx)
      simp only [gatherD] at htail
      rw [hhead, htail]

/-- Scattering a gather of the rows back into themselves changes nothing. -/
theorem scatterRows_gather_self (rows : List α) (idxs : List Nat) (d : α)
    (hrange : ∀ i ∈ idxs, i < rows.length) :
    scatterRows rows idxs (gatherD rows d idxs) = rows := by
  induction idxs generalizing rows with
  | nil => rfl
  | cons i is ih =>
    have hi : i < rows.length := hrange i (List.mem_cons_self i is)
    simp only [gatherD, List.map_cons]
    rw [scatterRows_cons, set_getD_self rows i hi]
    exact ih rows (fun x hx => hrange x (List.mem_cons_of_mem i hx))

/-- Scattering back the original values restores the original rows. -/
theorem scatterRows_restore (rows : List α) (idxs : List Nat) (src : List α)
    (d : α) (hnd : idxs.Nodup) (hrange : ∀ i ∈ idxs, i < rows.length) :
    scatterRows (scatterRows rows idxs src) idxs (gatherD rows d idxs) = rows := by
  induction idxs generalizing rows src with
  | nil => rfl
  | cons i is ih =>
    have hni : i ∉ is := (List.nodup_cons.mp hnd).1
    have hnd' : is.Nodup := (List.nodup_cons.mp hnd).2
    have hi : i < rows.length := hrange i (List.mem_cons_self i is)
    cases src with
    | nil =>
      rw [scatterRows_nil_src]
      exact scatterRows_gather_self rows (i :: is) d hrange
    | cons s ss =>
      rw [scatterRows_cons]
      simp only [gatherD, List.map_cons]
      rw [scatterRows_cons]
      have hcomm : (scatterRows (rows.set i s) is ss).set i (rows.getD i d) =
          scatterRows ((rows.set i s).set i (rows.getD i d)) is ss :=
        scatterRows_set_comm _ _ _ _ _ hni
      rw [hcomm, List.set_set, set_getD_self rows i hi]
      have hr' : ∀ x ∈ is, x < rows.length := fun x hx => hrange x (List.mem_cons_of_mem i hx)
      have := ih rows ss hnd' hr'
      simpa [gatherD] using this

/-- C5: two payloads are `==`-equal exactly when they are of the same concrete
payload class, have the same decoded shape and dtype, and their word arrays
are elementwise identical; and no other attribute participates — in
particular two payloads differing in `bps` (here 9 and 10, whose floor
divisions give the same `nsample`) compare equal. -/
theorem spec_C5_eq_iff :
    (∀ p q : VLBIPayloadBase, p.pyEq q = true ↔
      (p.cls = q.cls ∧ p.shape = q.shape ∧
        p.dtypeIsComplex = q.dtypeIsComplex ∧ p.words = q.words)) ∧
    (VLBIPayloadBase.pyEq ⟨[0x12345678], 9, [], false, "Payload"⟩
        ⟨[0x12345678], 10, [], false, "Payload"⟩ = true ∧ (9 : Nat) ≠ 10) := by
  refine ⟨fun p q => ?_, by decide, by decide⟩
  simp [VLBIPayloadBase.pyEq, Bool.and_eq_true, beq_iff_eq, and_assoc]

/-- C2 (code bug): `__getitem__` and `__setitem__` raise `TypeError` for the
tuple index `(2, 1)` on the test payload, while the repository's own tests
(`test_payload_getitem_setitem`, parametrised over tuple items) and the spec
require `payload[(2, 1)]` to equal `payload.data[(2, 1)]`: `_item_to_slices`
only accepts objects with `__index__` or slices. -/
theorem spec_C2_tuple_item_rejected :
    payloadTest8.getItem (.tup [.int 2, .int 1]) =
        .error (.typeError "object can only be indexed or sliced") ∧
      payloadTest8.setItem (.tup [.int 2, .int 1]) ⟨[], false, [1]⟩ =
        .error (.typeError "object can only be indexed or sliced") := by
  constructor
  · decide
  · decide

/-- C8 counterexample: with a mandated fixed size of 8 bytes, a payload whose
64 bits are not divisible by its 3 bits per full sample is accepted by the
constructor — divisibility is never checked. -/
theorem spec_C8_counterexample :
    ∃ p : VLBIPayloadBase,
      VLBIPayloadBase.init [1, 2] 3 [] false "Payload" (some 8) = .ok p ∧
        ¬ p.bpfs ∣ p.size * 8 := by
  refine ⟨⟨[1, 2], 3, [], false, "Payload"⟩, by decide, by decide⟩

/-- C8 as amended: when the class mandates a fixed size, construction
succeeds exactly when the word array's byte size matches it (and the failure
is a `ValueError`); divisibility of the size by the bits per full sample is
not part of the constructor check. -/
theorem spec_C8_amended_init_check :
    ∀ (words : List Nat) (bps : Nat) (ss : List Nat) (cx : Bool) (cls : String)
      (s : Nat),
      ((VLBIPayloadBase.init words bps ss cx cls (some s)).isOk = true ↔
        s = 4 * words.length) ∧
      (s ≠ 4 * words.length →
        VLBIPayloadBase.init words bps ss cx cls (some s) =
          .error (.valueError "Encoded data should have the fixed length")) ∧
      (VLBIPayloadBase.init words bps ss cx cls none).isOk = true := by
  intro words bps ss cx cls s
  refine ⟨?_, ?_, rfl⟩
  · unfold VLBIPayloadBase.init VLBIPayloadBase.size
    by_cases h : s = 4 * words.length
    · simp [h, Except.isOk, Except.toBool]
    · simp [h, Except.isOk, Except.toBool]
  · intro h
    unfold VLBIPayloadBase.init VLBIPayloadBase.size
    simp [h]

/-- C7 counterexample: the 1-bit complex test payload has 10 bits per full
sample (neither a multiple nor a divisor of 32), yet the partial selection
`payload1bit[0:16:2]` — a stepped slice spanning the whole range, hence
`stop - start == nsample` — succeeds instead of raising `TypeError`. -/
theorem spec_C7_counterexample :
    payloadTest1bit.bpfs % 32 ≠ 0 ∧ 32 % payloadTest1bit.bpfs ≠ 0 ∧
      (payloadTest1bit.getItem (.slc (some 0) (some 16) (some 2))).isOk = true := by
  refine ⟨by decide, by decide, by decide⟩

theorem itemCore_bad_ratio (p : VLBIPayloadBase) (isSlice : Bool)
    (start stop : Int) (stepO : Option Int) (n : Int)
    (hn : n ≠ (p.nsample : Int)) (h1 : p.bpfs % 32 ≠ 0) (h2 : 32 % p.bpfs ≠ 0) :
    p.itemCore isSlice start stop stepO n =
      .error (.typeError "Do not know how to extract data when full samples and words have these bits") := by
  unfold VLBIPayloadBase.itemCore
  rw [if_neg hn, if_neg h1, if_neg h2]

/-- C7 as amended: on a payload whose bits per full sample neither divide nor
are divided by the 32-bit word width, item access and item assignment raise
`TypeError` for every in-range integer index (provided `nsample != 1`) and
for every slice whose resolved extent `stop - start` differs from `nsample`;
items whose extent equals `nsample` (the full slice, or a stepped slice
spanning the whole payload such as `[::2]`) bypass the word-range computation
and do not raise. -/
theorem spec_C7_amended_bad_ratio_typeerror (p : VLBIPayloadBase) (item : PyIdx)
    (hbad1 : p.bpfs % 32 ≠ 0) (hbad2 : 32 % p.bpfs ≠ 0)
    (hform :
      (∃ i0, item = .int i0 ∧
        (0 ≤ (if i0 < 0 then i0 + p.nsample else i0) ∧
          (if i0 < 0 then i0 + p.nsample else i0) < (p.nsample : Int)) ∧
        p.nsample ≠ 1) ∨
      (∃ a b c, item = .slc a b c ∧ c ≠ some 0 ∧
        (sliceIndices a b c p.nsample).2.1 - (sliceIndices a b c p.nsample).1 ≠
          (p.nsample : Int))) :
    (∃ m, p.getItem item = .error (.typeError m)) ∧
      ∀ x, ∃ m, p.setItem item x = .error (.typeError m) := by
  have hslices : p.itemToSlices item =
      .error (.typeError "Do not know how to extract data when full samples and words have these bits") := by
    rcases hform with ⟨i0, hitem, hrange, hns⟩ | ⟨a, b, c, hitem, hc, hn⟩
    · subst hitem
      simp only [VLBIPayloadBase.itemToSlices]
      rw [if_neg (not_not_intro hrange)]
      refine itemCore_bad_ratio p false _ _ none 1 ?_ hbad1 hbad2
      intro hcontra
      have hns1 : p.nsample = 1 := by exact_mod_cast hcontra.symm
      exact hns hns1
    · subst hitem
      simp only [VLBIPayloadBase.itemToSlices]
      rw [if_neg hc]
      exact itemCore_bad_ratio p true _ _ _ _ hn hbad1 hbad2
  have hnotfull : ¬(item = .tup [] ∨ item = .slc none none none) := by
    rcases hform with ⟨i0, hitem, _, _⟩ | ⟨a, b, c, hitem, hc, hn⟩
    · subst hitem
      rintro (h | h) <;> exact PyIdx.noConfusion h
    · subst hitem
      rintro (h | h)
      · exact PyIdx.noConfusion h
      · injection h with h1 h2 h3
        subst h1
        subst h2
        subst h3
        apply hn
        simp [sliceIndices]
  constructor
  · refine ⟨"Do not know how to extract data when full samples and words have these bits", ?_⟩
    simp only [VLBIPayloadBase.getItem]
    rw [if_neg hnotfull, hslices]
  · intro x
    refine ⟨"Do not know how to extract data when full samples and words have these bits", ?_⟩
    simp only [VLBIPayloadBase.setItem]
    rw [if_neg hnotfull, hslices]

/-- C7 witness: the repository test's own failing call, `payload1bit[10:11]`,
raises `TypeError` for get and for set. -/
theorem spec_C7_witness :
    (∃ m, payloadTest1bit.getItem (.slc (some 10) (some 11) none) =
        .error (.typeError m)) ∧
      ∀ x, ∃ m, payloadTest1bit.setItem (.slc (some 10) (some 11) none) x =
        .error (.typeError m) :=
  spec_C7_amended_bad_ratio_typeerror payloadTest1bit (.slc (some 10) (some 11) none)
    (by decide) (by decide)
    (Or.inr ⟨some 10, some 11, none, rfl, by decide, by decide⟩)

/-- C3 counterexample: on the 8-bit test payload, assigning data of shape
`(2,)` — the sample shape, hence accepted by the fast-path guard — to the
full slice takes the direct-encode fast path and fails (two 8-bit codes do
not fill a 32-bit word), while the general decode-modify-encode path
broadcasts the row over the four samples and succeeds: the optimisation does
change the result. -/
theorem spec_C3_counterexample :
    payloadTest8.fastCond (.slc none none none) ⟨[2], false, [7, 9]⟩ = true ∧
      payloadTest8.setItem (.slc none none none) ⟨[2], false, [7, 9]⟩ =
        .error (.valueError "encoded data does not fill whole 32-bit words") ∧
      payloadTest8.setItemGeneral (.slc none none none) ⟨[2], false, [7, 9]⟩ =
        .ok ⟨[0x09070907, 0x09070907], 8, [2], false, "Payload"⟩ := by
  refine ⟨by decide, by decide, by decide⟩

theorem WSlice_bounds_le (ws : WSlice) (len : Nat) :
    (ws.bounds len).1 ≤ len ∧ (ws.bounds len).2 ≤ len := by
  cases ws with
  | all => exact ⟨Nat.zero_le len, Nat.le_refl len⟩
  | rng lo hi =>
    simp only [WSlice.bounds]
    constructor
    · rcases Int.lt_or_le lo 0 with h | h
      · rw [if_pos h]
        rw [Int.toNat_le]
        omega
      · rw [if_neg (Int.not_lt.mpr h)]
        rw [Int.toNat_le]
        omega
    · rcases Int.lt_or_le hi 0 with h | h
      · rw [if_pos h]
        rw [Int.toNat_le]
        omega
      · rw [if_neg (Int.not_lt.mpr h)]
        rw [Int.toNat_le]
        omega

theorem splice_self (l : List α) (a b : Nat) (hab : a ≤ b) :
    l.take a ++ ((l.take b).drop a) ++ l.drop b = l := by
  have hseg : (l.take b).drop a = (l.drop a).take (b - a) := by
    rw [List.take_drop, Nat.add_sub_cancel' hab]
  have hdb : l.drop b = (l.drop a).drop (b - a) := by
    rw [List.drop_drop, Nat.add_sub_cancel' hab]
  rw [hseg, hdb, List.append_assoc, List.take_append_drop, List.take_append_drop]

theorem mem_wseg (l : List α) (ws : WSlice) : ∀ y ∈ wseg l ws, y ∈ l := by
  intro y hy
  unfold wseg at hy
  exact List.mem_of_mem_take (List.mem_of_mem_drop hy)

theorem wseg_length (l : List α) (ws : WSlice) :
    (wseg l ws).length =
      (ws.bounds l.length).2 - (ws.bounds l.length).1 := by
  have hble := (WSlice_bounds_le ws l.length).2
  unfold wseg
  rw [List.length_drop, List.length_take]
  omega

/-- Writing anything into an empty word selection leaves the words unchanged
whenever the assignment succeeds. -/
theorem npSetSeg_empty (l : List Nat) (ws : WSlice) (src : List Nat) (l' : List Nat)
    (hempty : (ws.bounds l.length).2 ≤ (ws.bounds l.length).1)
    (hok : npSetSeg l ws src = .ok l') : l' = l := by
  have hb : max (ws.bounds l.length).1 (ws.bounds l.length).2 = (ws.bounds l.length).1 :=
    Nat.max_eq_left hempty
  simp only [npSetSeg, hb, Nat.sub_self] at hok
  cases src with
  | nil =>
    rw [if_pos (show ([] : List Nat).length = 0 from rfl)] at hok
    injection hok with hok
    rw [← hok]
    simp only [List.append_nil]
    exact List.take_append_drop _ l
  | cons v rest =>
    cases rest with
    | nil =>
      rw [if_neg (by simp)] at hok
      injection hok with hok
      rw [← hok]
      simp only [List.replicate, List.append_nil]
      exact List.take_append_drop _ l
    | cons w rest2 =>
      rw [if_neg (by simp)] at hok
      exact Except.noConfusion hok

/-- Writing a word segment back into its own place restores the word list. -/
theorem npSetSeg_self (l : List Nat) (ws : WSlice) :
    npSetSeg l ws (wseg l ws) = .ok l := by
  have hble := WSlice_bounds_le ws l.length
  rcases Nat.le_total (ws.bounds l.length).2 (ws.bounds l.length).1 with h | h
  · have hb : max (ws.bounds l.length).1 (ws.bounds l.length).2 = (ws.bounds l.length).1 :=
      Nat.max_eq_left h
    have hlen : (wseg l ws).length = 0 := by
      rw [wseg_length]
      omega
    have hnil : wseg l ws = [] := List.length_eq_zero.mp hlen
    simp only [npSetSeg, hb, Nat.sub_self, hnil]
    rw [if_pos (show ([] : List Nat).length = 0 from rfl)]
    rw [List.append_nil]
    rw [List.take_append_drop]
  · have hb : max (ws.bounds l.length).1 (ws.bounds l.length).2 = (ws.bounds l.length).2 :=
      Nat.max_eq_right h
    have hlen : (wseg l ws).length =
        (ws.bounds l.length).2 - (ws.bounds l.length).1 := wseg_length l ws
    simp only [npSetSeg, hb]
    rw [if_pos hlen]
    congr 1
    unfold wseg
    exact splice_self l _ _ h

theorem sliceIndices_some_self (v : Int) (len : Nat) :
    (sliceIndices (some v) (some v) none len).2.1 =
        (sliceIndices (some v) (some v) none len).1 ∧
      (sliceIndices (some v) (some v) none len).2.2 = 1 := by
  norm_num [sliceIndices]

theorem sliceIdxs_self (s : Int) : sliceIdxs s s 1 = [] := by
  norm_num [sliceIdxs, sliceCount]

theorem npAssignRows_self_slc (rows : List (List Nat)) (s t : Int) (hst : s = t)
    (cx : Bool) (ss : List Nat) (x : NDArr) (rows2 : List (List Nat))
    (hok : npAssignRows rows (.slc (some s) (some t) none) cx ss x = .ok rows2) :
    rows2 = rows := by
  subst hst
  simp only [npAssignRows] at hok
  rw [if_neg (by simp : ¬(none : Option Int) = some 0)] at hok
  have heq := sliceIndices_some_self s rows.length
  rw [heq.1, heq.2, sliceIdxs_self] at hok
  simp only [List.map_nil, scatterRows_nil_idxs] at hok
  cases hbf : broadcastFlat (([] : List Int).length :: ss) cx x with
  | error e =>
    rw [hbf] at hok
    exact Except.noConfusion hok
  | ok f =>
    rw [hbf] at hok
    injection hok with hok
    exact hok.symm

theorem setEncodeSlow_empty_slc (p : VLBIPayloadBase) (hwf : p.WF) (ws : WSlice)
    (s t : Int) (hst : s = t) (x : NDArr) (enc : List Nat)
    (hok : p.setEncodeSlow ws (.slc (some s) (some t) none) x = .ok enc) :
    enc = wseg p.words ws := by
  simp only [VLBIPayloadBase.setEncodeSlow] at hok
  by_cases hguard : p.sampWidth = 0 ∨
      ¬(p.sampWidth ∣ (decodeWords p.bps (wseg p.words ws)).length)
  · rw [if_pos hguard] at hok
    exact Except.noConfusion hok
  · rw [if_neg hguard] at hok
    push_neg at hguard
    cases hassign : npAssignRows
        (chunkList p.sampWidth (decodeWords p.bps (wseg p.words ws)))
        (.slc (some s) (some t) none) p.complex_data p.sample_shape x with
    | error e =>
      rw [hassign] at hok
      exact Except.noConfusion hok
    | ok rows2 =>
      rw [hassign] at hok
      dsimp only at hok
      have hrows : rows2 =
          chunkList p.sampWidth (decodeWords p.bps (wseg p.words ws)) :=
        npAssignRows_self_slc _ s t hst _ _ x _ hassign
      rw [hrows, flatten_chunkList _ hguard.1 _] at hok
      have hmem : ∀ w ∈ wseg p.words ws, w < 2 ^ 32 :=
        fun w hw => hwf.2.2.2.2 w (mem_wseg p.words ws w hw)
      rw [encodeToWords_decodeWords p.bps hwf.1 hwf.2.1 _ hmem] at hok
      injection hok with h
      exact h.symm

theorem nsample_zero_words_nil (p : VLBIPayloadBase) (hwf : p.WF)
    (h0 : p.nsample = 0) : p.words.length = 0 := by
  have hbpfs : 0 < p.bpfs := by
    have h1 : 0 < p.sampWidth := by
      unfold VLBIPayloadBase.sampWidth
      rcases hwf.2.2.1 with hp
      cases p.complex_data <;> simpa using hp
    exact Nat.mul_pos hwf.1 h1
  rcases hwf.2.2.2.1 with ⟨c, hc⟩
  have hns : p.nsample = c := by
    unfold VLBIPayloadBase.nsample
    rw [hc]
    exact Nat.mul_div_cancel_left c hbpfs
  rw [hns] at h0
  subst h0
  rw [Nat.mul_zero] at hc
  unfold VLBIPayloadBase.size at hc
  omega

theorem itemToSlices_empty_slice (p : VLBIPayloadBase) (hwf : p.WF) (i : Int) :
    (∃ e, p.itemToSlices (.slc (some i) (some i) none) = .error e) ∨
    (∃ ws ds, p.itemToSlices (.slc (some i) (some i) none) = .ok (ws, ds) ∧
      ((ws.bounds p.words.length).2 ≤ (ws.bounds p.words.length).1 ∨
        ∃ s t : Int, ds = .slc (some s) (some t) none ∧ s = t)) := by
  simp only [VLBIPayloadBase.itemToSlices]
  rw [if_neg (by simp : ¬(none : Option Int) = some 0)]
  have heq := sliceIndices_some_self i p.nsample
  rw [heq.1, heq.2, Int.sub_self]
  rw [if_pos rfl]
  simp only [VLBIPayloadBase.itemCore]
  by_cases h0 : (0 : Int) = (p.nsample : Int)
  · rw [if_pos h0]
    refine Or.inr ⟨.all, _, rfl, Or.inl ?_⟩
    have hns : p.nsample = 0 := by exact_mod_cast h0.symm
    have hlen := nsample_zero_words_nil p hwf hns
    simp [WSlice.bounds, hlen]
  · rw [if_neg h0]
    by_cases hA : p.bpfs % 32 = 0
    · rw [if_pos hA]
      exact Or.inr ⟨_, _, rfl, Or.inl (Nat.le_refl _)⟩
    · rw [if_neg hA]
      by_cases hB : 32 % p.bpfs = 0
      · rw [if_pos hB]
        by_cases ho :
            (sliceIndices (some i) (some i) none p.nsample).1.fmod
              (Int.ofNat (32 / p.bpfs)) ≠ 0
        · rw [if_pos ho, if_pos ho, if_pos ho]
          simp only [if_true]
          refine Or.inr ⟨_, _, rfl, Or.inr ⟨_, _, rfl, ?_⟩⟩
          exact (Int.add_zero _).symm
        · rw [if_neg ho, if_neg ho, if_neg ho]
          exact Or.inr ⟨_, _, rfl, Or.inl (Nat.le_refl _)⟩
      · rw [if_neg hB]
        exact Or.inl ⟨_, rfl⟩

/-- C10: assigning any value to an empty slice `payload[i:i]` leaves the
underlying words unchanged whenever the assignment succeeds, even though the
implementation may decode and re-encode a covering word range. -/
theorem spec_C10_empty_slice_noop (p : VLBIPayloadBase) (hwf : p.WF) (i : Int)
    (x : NDArr) (p' : VLBIPayloadBase)
    (hok : p.setItem (.slc (some i) (some i) none) x = .ok p') :
    p'.words = p.words := by
  have hguard : ¬((PyIdx.slc (some i) (some i) none) = .tup [] ∨
      (PyIdx.slc (some i) (some i) none) = .slc none none none) := by
    rintro (h | h)
    · exact PyIdx.noConfusion h
    · injection h with h1 h2 h3
      exact Option.noConfusion h1
  simp only [VLBIPayloadBase.setItem] at hok
  rw [if_neg hguard] at hok
  rcases itemToSlices_empty_slice p hwf i with ⟨e, he⟩ | ⟨ws, ds, hits, hcase⟩
  · rw [he] at hok
    exact Except.noConfusion hok
  · rw [hits] at hok
    dsimp only at hok
    cases henc : (if p.fastCond ds x then p.setEncodeFast x else p.setEncodeSlow ws ds x) with
    | error e2 =>
      rw [henc] at hok
      exact Except.noConfusion hok
    | ok enc =>
      rw [henc] at hok
      dsimp only at hok
      cases hset : npSetSeg p.words ws enc with
      | error e3 =>
        rw [hset] at hok
        exact Except.noConfusion hok
      | ok words2 =>
        rw [hset] at hok
        dsimp only at hok
        injection hok with hok
        rw [← hok]
        rcases hcase with hempty | ⟨s, t, hds, hst⟩
        · exact npSetSeg_empty p.words ws enc words2 hempty hset
        · have hne : (DataIdx.slc (some s) (some t) none) ≠
              DataIdx.slc none none none := by
            intro hcon
            injection hcon with ha hb hc
            exact Option.noConfusion ha
          have hfast : p.fastCond ds x = false := by
            rw [hds]
            unfold VLBIPayloadBase.fastCond
            rw [beq_eq_false_iff_ne.mpr hne]
            simp
          rw [hfast] at henc
          simp only [Bool.false_eq_true, if_false] at henc
          rw [hds] at henc
          have hslow := setEncodeSlow_empty_slc p hwf ws s t hst x enc henc
          rw [hslow] at hset
          rw [npSetSeg_self p.words ws] at hset
          injection hset with h4
          exact h4.symm

/-- C10 witness: the repository test's own call, `payload[1:1] = 1` on the
8-bit test payload, leaves the words unchanged. -/
theorem spec_C10_witness :
    payloadTest8.setItem (.slc (some 1) (some 1) none) ⟨[], false, [1]⟩ =
        .ok payloadTest8 ∧
      payloadTest8.words = payloadTest8.words :=
  ⟨by decide,
   spec_C10_empty_slice_noop payloadTest8
     (by unfold VLBIPayloadBase.WF; decide) 1 ⟨[], false, [1]⟩ payloadTest8
     (by decide)⟩

theorem gatherD_range_self (l : List α) (d : α) :
    gatherD l d (List.range l.length) = l := by
  induction l with
  | nil => rfl
  | cons x xs ih =>
    rw [List.length_cons, List.range_succ_eq_map]
    simp only [gatherD, List.map_cons, List.getD_cons_zero, List.map_map]
    have hstep : List.map ((fun i => (x :: xs).getD i d) ∘ Nat.succ)
        (List.range xs.length) = List.map (fun i => xs.getD i d) (List.range xs.length) := by
      apply List.map_congr_left
      intro k _
      simp [Function.comp, List.getD_cons_succ]
    simp only [gatherD] at ih
    rw [hstep, ih]

theorem scatterRows_full (rows src : List α) (h : src.length = rows.length) :
    scatterRows rows (List.range rows.length) src = src := by
  cases rows with
  | nil =>
    have hs : src = [] := List.length_eq_zero.mp (by rw [h]; rfl)
    subst hs
    rfl
  | cons r rs =>
    have hd : α := r
    have hnd : (List.range (r :: rs).length).Nodup := List.nodup_range _
    have hrange : ∀ i ∈ List.range (r :: rs).length, i < (r :: rs).length :=
      fun i hi => List.mem_range.mp hi
    have hlen : src.length = (List.range (r :: rs).length).length := by
      rw [List.length_range]
      exact h
    have hg := gatherD_scatterRows (r :: rs) (List.range (r :: rs).length) src hd
      hnd hrange hlen
    have hslen : (scatterRows (r :: rs) (List.range (r :: rs).length) src).length =
        (r :: rs).length := scatterRows_length _ _ _
    have hgs := gatherD_range_self
      (scatterRows (r :: rs) (List.range (r :: rs).length) src) hd
    rw [hslen] at hgs
    rw [← hgs, hg]

theorem sliceIndices_none3 (len : Nat) :
    sliceIndices none none none len = (0, (len : Int), 1) := by
  norm_num [sliceIndices]

theorem sliceIdxs_full_map (n : Nat) :
    (sliceIdxs 0 (n : Int) 1).map Int.toNat = List.range n ∧
      (sliceIdxs 0 (n : Int) 1).length = n := by
  have hc : sliceCount 0 (n : Int) 1 = n := by
    norm_num [sliceCount]
  constructor
  · rw [sliceIdxs, hc, List.map_map]
    have hmap : ∀ k ∈ List.range n,
        (Int.toNat ∘ fun k : Nat => (0 : Int) + (k : Int) * 1) k = id k := by
      intro k _
      simp [Function.comp]
    rw [List.map_congr_left hmap, List.map_id]
  · rw [sliceIdxs, List.length_map, hc, List.length_range]

/-- When the data slice is the full slice and the data already has the full
decoded shape of the selected word range, the general decode-modify-encode
path computes exactly the direct encode of the data. -/
theorem setEncodeSlow_full_exact (p : VLBIPayloadBase) (ws : WSlice) (x : NDArr)
    (hw0 : p.sampWidth ≠ 0)
    (hkind : x.isC = p.complex_data)
    (hdvd : p.sampWidth ∣ (decodeWords p.bps (wseg p.words ws)).length)
    (hshape : x.shape =
      ((decodeWords p.bps (wseg p.words ws)).length / p.sampWidth) :: p.sample_shape)
    (hlen : x.flat.length = (decodeWords p.bps (wseg p.words ws)).length) :
    p.setEncodeSlow ws (.slc none none none) x = p.setEncodeFast x := by
  have hguard : ¬(p.sampWidth = 0 ∨
      ¬(p.sampWidth ∣ (decodeWords p.bps (wseg p.words ws)).length)) := by
    push_neg
    exact ⟨hw0, hdvd⟩
  simp only [VLBIPayloadBase.setEncodeSlow, VLBIPayloadBase.setEncodeFast]
  rw [if_neg hguard]
  have hRmul := chunkList_count_mul p.sampWidth hw0
    (decodeWords p.bps (wseg p.words ws)) hdvd
  have hR : (chunkList p.sampWidth (decodeWords p.bps (wseg p.words ws))).length =
      (decodeWords p.bps (wseg p.words ws)).length / p.sampWidth := by
    rw [← hRmul, Nat.mul_div_cancel _ (Nat.pos_of_ne_zero hw0)]
  simp only [npAssignRows]
  rw [if_neg (by simp : ¬(none : Option Int) = some 0)]
  rw [sliceIndices_none3]
  have hmap := sliceIdxs_full_map
    (chunkList p.sampWidth (decodeWords p.bps (wseg p.words ws))).length
  rw [hmap.2, hmap.1]
  have hxs : x.shape =
      (chunkList p.sampWidth (decodeWords p.bps (wseg p.words ws))).length ::
        p.sample_shape := by
    rw [hshape, hR]
  rw [broadcastFlat, if_pos hxs, kindCast, if_pos hkind]
  have hchunklen : (chunkList p.sampWidth x.flat).length =
      (chunkList p.sampWidth (decodeWords p.bps (wseg p.words ws))).length := by
    have h1 := chunkList_count_mul p.sampWidth hw0 x.flat (by rw [hlen]; exact hdvd)
    have h2 := hRmul
    rw [hlen] at h1
    exact Nat.eq_of_mul_eq_mul_right (Nat.pos_of_ne_zero hw0) (h1.trans h2.symm)
  have hscatter : scatterRows
      (chunkList p.sampWidth (decodeWords p.bps (wseg p.words ws)))
      (List.range (chunkList p.sampWidth (decodeWords p.bps (wseg p.words ws))).length)
      (chunkList p.sampWidth x.flat) = chunkList p.sampWidth x.flat :=
    scatterRows_full _ _ hchunklen
  dsimp only [Except.map]
  rw [show rowPitch p.complex_data p.sample_shape = p.sampWidth from rfl]
  rw [hscatter, flatten_chunkList p.sampWidth hw0 x.flat]

/-- C3 as amended: whenever the fast-path guard of `__setitem__` holds and
the incoming data's full shape equals the decoded shape of the selected word
range (not merely its sample-shape suffix), the direct-encode fast path
produces exactly the same result as the general decode-modify-encode path;
when the data merely broadcasts (a strict suffix shape), the two paths may
differ, as the counterexample shows. -/
theorem spec_C3_amended_fastpath_agrees (p : VLBIPayloadBase) (item : PyIdx)
    (ws : WSlice) (ds : DataIdx) (x : NDArr)
    (hw0 : p.sampWidth ≠ 0)
    (hws : (if item = .tup [] ∨ item = .slc none none none
            then Except.ok (WSlice.all, DataIdx.slc none none none)
            else p.itemToSlices item) = .ok (ws, ds))
    (hfast : p.fastCond ds x = true)
    (hdvd : p.sampWidth ∣ (decodeWords p.bps (wseg p.words ws)).length)
    (hshape : x.shape =
      ((decodeWords p.bps (wseg p.words ws)).length / p.sampWidth) :: p.sample_shape)
    (hlen : x.flat.length = (decodeWords p.bps (wseg p.words ws)).length) :
    p.setItem item x = p.setItemGeneral item x := by
  have hf := hfast
  unfold VLBIPayloadBase.fastCond at hf
  simp only [Bool.and_eq_true, beq_iff_eq] at hf
  obtain ⟨⟨hds, hsuffix⟩, hkind⟩ := hf
  subst hds
  have hagree := setEncodeSlow_full_exact p ws x hw0 hkind hdvd hshape hlen
  simp only [VLBIPayloadBase.setItem, VLBIPayloadBase.setItemGeneral]
  rw [hws]
  dsimp only
  rw [hfast]
  simp only [if_true]
  rw [hagree]

/-- C3 witness: on the 8-bit test payload, writing a full-shape `(4, 2)`
array through the full slice gives identical results along the fast and the
general path. -/
theorem spec_C3_witness :
    payloadTest8.setItem (.slc none none none) ⟨[4, 2], false, [1, 2, 3, 4, 5, 6, 7, 8]⟩ =
      payloadTest8.setItemGeneral (.slc none none none)
        ⟨[4, 2], false, [1, 2, 3, 4, 5, 6, 7, 8]⟩ :=
  spec_C3_amended_fastpath_agrees payloadTest8 (.slc none none none)
    WSlice.all (DataIdx.slc none none none)
    ⟨[4, 2], false, [1, 2, 3, 4, 5, 6, 7, 8]⟩
    (by decide) (by decide) (by decide) (by decide) (by decide) (by decide)

theorem mem_scatterRows (rows : List α) (idxs : List Nat) (src : List α) :
    ∀ r ∈ scatterRows rows idxs src, r ∈ rows ∨ r ∈ src := by
  induction idxs generalizing rows src with
  | nil =>
    intro r hr
    exact Or.inl hr
  | cons i is ih =>
    intro r hr
    cases src with
    | nil => exact Or.inl hr
    | cons s ss =>
      rw [scatterRows_cons] at hr
      rcases ih (rows.set i s) ss r hr with h1 | h2
      · rcases List.mem_or_eq_of_mem_set h1 with h3 | h4
        · exact Or.inl h3
        · exact Or.inr (h4 ▸ List.mem_cons_self s ss)
      · exact Or.inr (List.mem_cons_of_mem s h2)

theorem scatterRows_uniform (rows : List (List α)) (idxs : List Nat)
    (src : List (List α)) (w : Nat)
    (hrows : ∀ r ∈ rows, r.length = w) (hsrc : ∀ r ∈ src, r.length = w) :
    ∀ r ∈ scatterRows rows idxs src, r.length = w := by
  intro r hr
  rcases mem_scatterRows rows idxs src r hr with h | h
  · exact hrows r h
  · exact hsrc r h

theorem sliceCount_lt_elem (s t st : Int) (hst : 0 < st) (k : Nat)
    (hk : k < sliceCount s t st) : s + k * st < t := by
  rw [sliceCount, if_pos hst] at hk
  have hk' : (k : Int) < ((t - s) + st - 1) / st := Int.lt_toNat.mp hk
  have hmul : ((k : Int) + 1) * st ≤ (t - s) + st - 1 :=
    (Int.le_ediv_iff_mul_le hst).mp hk'
  have hexp : ((k : Int) + 1) * st = (k : Int) * st + st := by ring
  omega

theorem sliceIdxs_natFacts (s t st : Int) (hst : 0 < st) (hs : 0 ≤ s) (R : Nat)
    (ht : t ≤ (R : Int)) :
    ((sliceIdxs s t st).map Int.toNat).Nodup ∧
      (∀ j ∈ (sliceIdxs s t st).map Int.toNat, j < R) ∧
      ((sliceIdxs s t st).map Int.toNat).length = sliceCount s t st := by
  have helem : ∀ k : Nat, 0 ≤ s + (k : Int) * st := by
    intro k
    have : (0 : Int) ≤ (k : Int) * st :=
      mul_nonneg (Int.ofNat_nonneg k) (le_of_lt hst)
    omega
  refine ⟨?_, ?_, ?_⟩
  · rw [sliceIdxs, List.map_map]
    apply List.Nodup.map_on ?_ (List.nodup_range _)
    intro k1 h1 k2 h2 heq
    simp only [Function.comp] at heq
    have n1 := helem k1
    have n2 := helem k2
    have e1 : s + (k1 : Int) * st = s + (k2 : Int) * st := by omega
    have e2 : (k1 : Int) * st = (k2 : Int) * st := by omega
    have e3 : (k1 : Int) = (k2 : Int) := mul_right_cancel₀ (ne_of_gt hst) e2
    exact_mod_cast e3
  · intro j hj
    rw [sliceIdxs, List.map_map] at hj
    rcases List.mem_map.mp hj with ⟨k, hk, hkeq⟩
    have hkc := List.mem_range.mp hk
    have hlt := sliceCount_lt_elem s t st hst k hkc
    have hnn := helem k
    simp only [Function.comp] at hkeq
    omega
  · rw [sliceIdxs, List.length_map, List.length_map, List.length_range]

theorem getD_mem_of_lt (l : List α) (j : Nat) (d : α) (hj : j < l.length) :
    l.getD j d ∈ l := by
  rw [List.getD_eq_getElem l d hj]
  exact List.getElem_mem hj

theorem gatherD_flatten_length (rows : List (List Nat)) (JN : List Nat) (w : Nat)
    (huni : ∀ r ∈ rows, r.length = w) (hrange : ∀ j ∈ JN, j < rows.length) :
    ((gatherD rows [] JN).flatten).length = JN.length * w := by
  induction JN with
  | nil => simp [gatherD]
  | cons j js ih =>
    simp only [gatherD, List.map_cons, List.flatten_cons, List.length_append,
      List.length_cons]
    have hj : j < rows.length := hrange j (List.mem_cons_self j js)
    have hrow : (rows.getD j []).length = w :=
      huni _ (getD_mem_of_lt rows j [] hj)
    have htail := ih (fun j' hj' => hrange j' (List.mem_cons_of_mem j hj'))
    simp only [gatherD] at htail
    rw [hrow, htail]
    ring

theorem gatherD_flatten_vals (rows : List (List Nat)) (JN : List Nat)
    (P : Nat → Prop) (hrows : ∀ r ∈ rows, ∀ v ∈ r, P v) :
    ∀ v ∈ ((gatherD rows [] JN).flatten), P v := by
  intro v hv
  rcases List.mem_flatten.mp hv with ⟨row, hrow, hvrow⟩
  rcases List.mem_map.mp hrow with ⟨j, _, hjrow⟩
  by_cases hj : j < rows.length
  · exact hrows _ (hjrow ▸ getD_mem_of_lt rows j [] hj) v hvrow
  · rw [← hjrow, List.getD_eq_default] at hvrow
    · simp at hvrow
    · omega

theorem gatherD_uniform (rows : List (List Nat)) (JN : List Nat) (w : Nat)
    (huni : ∀ r ∈ rows, r.length = w) (hrange : ∀ j ∈ JN, j < rows.length) :
    ∀ r ∈ gatherD rows [] JN, r.length = w := by
  intro r hr
  rcases List.mem_map.mp hr with ⟨j, hj, hjr⟩
  exact hjr ▸ huni _ (getD_mem_of_lt rows j [] (hrange j hj))

theorem npSetSeg_exact (l : List Nat) (ws : WSlice) (enc : List Nat)
    (hlen : enc.length =
      max (ws.bounds l.length).1 (ws.bounds l.length).2 - (ws.bounds l.length).1) :
    npSetSeg l ws enc = .ok
      (l.take (ws.bounds l.length).1 ++ enc ++
        l.drop (max (ws.bounds l.length).1 (ws.bounds l.length).2)) := by
  simp only [npSetSeg]
  rw [if_pos hlen]

theorem npSetSeg_exact_length (l : List Nat) (ws : WSlice) (enc : List Nat)
    (hlen : enc.length =
      max (ws.bounds l.length).1 (ws.bounds l.length).2 - (ws.bounds l.length).1) :
    (l.take (ws.bounds l.length).1 ++ enc ++
      l.drop (max (ws.bounds l.length).1 (ws.bounds l.length).2)).length = l.length := by
  have h1 := (WSlice_bounds_le ws l.length).1
  have h2 := (WSlice_bounds_le ws l.length).2
  simp only [List.length_append, List.length_take, List.length_drop, hlen]
  omega

/-- Reading the word slice back from the spliced result gives the new words,
when the slice bounds are ordered. -/
theorem wseg_splice (l : List Nat) (ws : WSlice) (enc : List Nat)
    (hord : (ws.bounds l.length).1 ≤ (ws.bounds l.length).2)
    (hlen : enc.length = (ws.bounds l.length).2 - (ws.bounds l.length).1) :
    wseg (l.take (ws.bounds l.length).1 ++ enc ++
      l.drop (max (ws.bounds l.length).1 (ws.bounds l.length).2)) ws = enc := by
  have h1 := (WSlice_bounds_le ws l.length).1
  have h2 := (WSlice_bounds_le ws l.length).2
  have hmax : max (ws.bounds l.length).1 (ws.bounds l.length).2 =
      (ws.bounds l.length).2 := Nat.max_eq_right hord
  rw [hmax]
  have hreslen : (l.take (ws.bounds l.length).1 ++ enc ++
      l.drop (ws.bounds l.length).2).length = l.length := by
    simp only [List.length_append, List.length_take, List.length_drop, hlen]
    omega
  unfold wseg
  rw [hreslen]
  have htk : (l.take (ws.bounds l.length).1 ++ enc).length =
      (ws.bounds l.length).2 := by
    simp only [List.length_append, List.length_take, hlen]
    omega
  rw [← htk, List.take_left]
  have hA : (l.take (ws.bounds l.length).1).length = (ws.bounds l.length).1 := by
    simp only [List.length_take]
    omega
  nth_rewrite 1 [← hA]
  rw [List.drop_left]

theorem flatten_uniform_length (rows : List (List α)) (w : Nat)
    (huni : ∀ r ∈ rows, r.length = w) : rows.flatten.length = rows.length * w := by
  induction rows with
  | nil => simp
  | cons r rs ih =>
    simp only [List.flatten_cons, List.length_append, List.length_cons]
    rw [huni r (List.mem_cons_self r rs),
      ih (fun x hx => huni x (List.mem_cons_of_mem r hx))]
    ring

theorem encode_rows_ok (bps : Nat) (h0 : 0 < bps) (hdvd : bps ∣ 32) (Y : List Nat)
    (hvals : ∀ v ∈ Y, v < 2 ^ bps) (hsize : (32 / bps) ∣ Y.length) :
    ∃ enc, encodeToWords bps Y = .ok enc ∧ decodeWords bps enc = Y ∧
      enc.length * (32 / bps) = Y.length := by
  have hmod : Y.length * bps % 32 = 0 := by
    rcases hsize with ⟨k, hk⟩
    rw [hk]
    have hcalc : 32 / bps * k * bps = 32 * k := by
      rw [Nat.mul_comm (32 / bps) k, Nat.mul_assoc, Nat.mul_comm (32 / bps) bps,
        bps_mul_vpw bps hdvd, Nat.mul_comm k 32]
    rw [hcalc]
    exact Nat.mul_mod_right 32 k
  exact ⟨_, encodeToWords_ok bps Y hmod,
    decodeWords_encodeVal bps h0 hdvd Y hvals hsize,
    encodeToWords_ok_length bps h0 hdvd Y hsize⟩

theorem sliceIndices_pos_bounds (a b c : Option Int) (len : Nat)
    (h : 0 < c.getD 1) :
    0 ≤ (sliceIndices a b c len).1 ∧ (sliceIndices a b c len).1 ≤ len ∧
      0 ≤ (sliceIndices a b c len).2.1 ∧ (sliceIndices a b c len).2.1 ≤ len ∧
      (sliceIndices a b c len).2.2 = c.getD 1 := by
  unfold sliceIndices
  cases a with
  | none =>
    cases b with
    | none =>
      simp only [if_pos h]
      refine ⟨le_refl 0, Int.ofNat_nonneg len, Int.ofNat_nonneg len, le_refl _, trivial⟩
    | some vb =>
      simp only [if_pos h]
      rcases Int.lt_or_le vb 0 with hv | hv
      · rw [if_pos hv]
        refine ⟨le_refl 0, Int.ofNat_nonneg len, ?_, ?_, trivial⟩ <;> omega
      · rw [if_neg (Int.not_lt.mpr hv)]
        refine ⟨le_refl 0, Int.ofNat_nonneg len, ?_, ?_, trivial⟩ <;> omega
  | some va =>
    cases b with
    | none =>
      simp only [if_pos h]
      rcases Int.lt_or_le va 0 with hv | hv
      · rw [if_pos hv]
        refine ⟨?_, ?_, Int.ofNat_nonneg len, le_refl _, trivial⟩ <;> omega
      · rw [if_neg (Int.not_lt.mpr hv)]
        refine ⟨?_, ?_, Int.ofNat_nonneg len, le_refl _, trivial⟩ <;> omega
    | some vb =>
      simp only [if_pos h]
      rcases Int.lt_or_le va 0 with hva | hva <;> rcases Int.lt_or_le vb 0 with hvb | hvb
      · rw [if_pos hva, if_pos hvb]
        refine ⟨?_, ?_, ?_, ?_, trivial⟩ <;> omega
      · rw [if_pos hva, if_neg (Int.not_lt.mpr hvb)]
        refine ⟨?_, ?_, ?_, ?_, trivial⟩ <;> omega
      · rw [if_neg (Int.not_lt.mpr hva), if_pos hvb]
        refine ⟨?_, ?_, ?_, ?_, trivial⟩ <;> omega
      · rw [if_neg (Int.not_lt.mpr hva), if_neg (Int.not_lt.mpr hvb)]
        refine ⟨?_, ?_, ?_, ?_, trivial⟩ <;> omega

theorem itemToSlices_congr (p q : VLBIPayloadBase)
    (hn : p.nsample = q.nsample) (hb : p.bpfs = q.bpfs) (item : PyIdx) :
    p.itemToSlices item = q.itemToSlices item := by
  unfold VLBIPayloadBase.itemToSlices VLBIPayloadBase.itemCore
  rw [hn, hb]

theorem npSelectRows_slc_eq (rows : List (List Nat)) (a' b' c' : Option Int)
    (cx : Bool) (ss : List Nat) (hc : ¬c' = some 0) :
    npSelectRows rows (.slc a' b' c') cx ss = .ok
      ⟨(sliceIdxs (sliceIndices a' b' c' rows.length).1
          (sliceIndices a' b' c' rows.length).2.1
          (sliceIndices a' b' c' rows.length).2.2).length :: ss, cx,
        (gatherD rows []
          ((sliceIdxs (sliceIndices a' b' c' rows.length).1
            (sliceIndices a' b' c' rows.length).2.1
            (sliceIndices a' b' c' rows.length).2.2).map Int.toNat)).flatten⟩ := by
  simp only [npSelectRows]
  rw [if_neg hc]

theorem npAssignRows_slc_exact (rows : List (List Nat)) (a' b' c' : Option Int)
    (cx : Bool) (ss : List Nat) (x : NDArr) (hc : ¬c' = some 0)
    (hkind : x.isC = cx)
    (hshape : x.shape =
      (sliceIdxs (sliceIndices a' b' c' rows.length).1
        (sliceIndices a' b' c' rows.length).2.1
        (sliceIndices a' b' c' rows.length).2.2).length :: ss) :
    npAssignRows rows (.slc a' b' c') cx ss x = .ok
      (scatterRows rows
        ((sliceIdxs (sliceIndices a' b' c' rows.length).1
          (sliceIndices a' b' c' rows.length).2.1
          (sliceIndices a' b' c' rows.length).2.2).map Int.toNat)
        (chunkList (rowPitch cx ss) x.flat)) := by
  simp only [npAssignRows]
  rw [if_neg hc, broadcastFlat, if_pos hshape, kindCast, if_pos hkind]
  rfl

theorem getItem_nonfull_eq (p : VLBIPayloadBase) (item : PyIdx) (ws : WSlice)
    (ds : DataIdx)
    (hnotfull : ¬(item = .tup [] ∨ item = .slc none none none))
    (hres : p.itemToSlices item = .ok (ws, ds))
    (hw0 : ¬p.sampWidth = 0)
    (hdvd : p.sampWidth ∣ (decodeWords p.bps (wseg p.words ws)).length) :
    p.getItem item = npSelectRows
      (chunkList p.sampWidth (decodeWords p.bps (wseg p.words ws))) ds
      p.complex_data p.sample_shape := by
  simp only [VLBIPayloadBase.getItem]
  rw [if_neg hnotfull, hres]
  dsimp only
  rw [if_neg (by push_neg; exact ⟨hw0, hdvd⟩)]

theorem setItem_nonfull_eq (p : VLBIPayloadBase) (item : PyIdx) (ws : WSlice)
    (ds : DataIdx) (x : NDArr)
    (hnotfull : ¬(item = .tup [] ∨ item = .slc none none none))
    (hres : p.itemToSlices item = .ok (ws, ds)) :
    p.setItem item x =
      (match (if p.fastCond ds x then p.setEncodeFast x
              else p.setEncodeSlow ws ds x) with
       | .error e => .error e
       | .ok enc =>
         match npSetSeg p.words ws enc with
         | .error e => .error e
         | .ok words2 => .ok { p with words := words2 }) := by
  simp only [VLBIPayloadBase.setItem]
  rw [if_neg hnotfull, hres]

theorem setEncodeSlow_eq (p : VLBIPayloadBase) (ws : WSlice) (ds : DataIdx)
    (x : NDArr) (hw0 : ¬p.sampWidth = 0)
    (hdvd : p.sampWidth ∣ (decodeWords p.bps (wseg p.words ws)).length) :
    p.setEncodeSlow ws ds x =
      (match npAssignRows (chunkList p.sampWidth (decodeWords p.bps (wseg p.words ws)))
          ds p.complex_data p.sample_shape x with
       | .error e => .error e
       | .ok rows2 => encodeToWords p.bps rows2.flatten) := by
  simp only [VLBIPayloadBase.setEncodeSlow]
  rw [if_neg (by push_neg; exact ⟨hw0, hdvd⟩)]

theorem nsample_congr_words (p : VLBIPayloadBase) (w2 : List Nat)
    (hl : w2.length = p.words.length) :
    ({ p with words := w2 } : VLBIPayloadBase).nsample = p.nsample := by
  unfold VLBIPayloadBase.nsample VLBIPayloadBase.size VLBIPayloadBase.bpfs
    VLBIPayloadBase.sampWidth
  dsimp only
  rw [hl]

theorem pyEq_refl (p : VLBIPayloadBase) : p.pyEq p = true := by
  unfold VLBIPayloadBase.pyEq
  simp

theorem take_len_append (n : Nat) (l₁ l₂ : List α) (h : l₁.length = n) :
    (l₁ ++ l₂).take n = l₁ := by
  subst h
  exact List.take_left l₁ l₂

theorem drop_len_append (n : Nat) (l₁ l₂ : List α) (h : l₁.length = n) :
    (l₁ ++ l₂).drop n = l₂ := by
  subst h
  exact List.drop_left l₁ l₂

/-- Set-then-get-then-restore engine for slice data indices with positive
step: writing shape-exact data through any non-full item that resolves to a
positive-step data slice succeeds, reading the item back returns exactly the
written data, and writing the original item value back restores a payload
`==`-equal to the original. -/
theorem engine_slc (p : VLBIPayloadBase) (item : PyIdx) (hwf : p.WF)
    (ws : WSlice) (a' b' c' : Option Int)
    (hnotfull : ¬(item = .tup [] ∨ item = .slc none none none))
    (hres : p.itemToSlices item = .ok (ws, .slc a' b' c'))
    (hstep : 0 < c'.getD 1)
    (hdvd : p.sampWidth ∣ (decodeWords p.bps (wseg p.words ws)).length)
    (x old : NDArr)
    (hold : p.getItem item = .ok old)
    (hxs : x.shape = old.shape) (hxc : x.isC = old.isC)
    (hxl : x.flat.length = old.flat.length)
    (hxv : ∀ v ∈ x.flat, v < 2 ^ p.bps) :
    ∃ p', p.setItem item x = .ok p' ∧ p'.getItem item = .ok x ∧
      ∃ p'', p'.setItem item old = .ok p'' ∧ p''.pyEq p = true := by
  obtain ⟨hbps0, hdvd32, hprod, hszdvd, hwlt⟩ := hwf
  have hw0 : p.sampWidth ≠ 0 := by
    unfold VLBIPayloadBase.sampWidth
    have h1 : 0 < (if p.complex_data then 2 else 1) := by
      cases p.complex_data <;> norm_num
    exact (Nat.mul_pos h1 hprod).ne'
  have hc0 : ¬c' = some 0 := by
    intro h
    rw [h] at hstep
    simp at hstep
  have hget := getItem_nonfull_eq p item ws (.slc a' b' c') hnotfull hres hw0 hdvd
  obtain ⟨A, hA⟩ : ∃ A, decodeWords p.bps (wseg p.words ws) = A := ⟨_, rfl⟩
  rw [hA] at hdvd hget
  obtain ⟨rows, hrows⟩ : ∃ r, chunkList p.sampWidth A = r := ⟨_, rfl⟩
  rw [hrows] at hget
  have hAlen : A.length = (wseg p.words ws).length * (32 / p.bps) := by
    rw [← hA]
    exact decodeWords_length p.bps (wseg p.words ws)
  have hAvals : ∀ v ∈ A, v < 2 ^ p.bps := by
    rw [← hA]
    exact mem_decodeWords_lt p.bps (wseg p.words ws)
  have hAflat : rows.flatten = A := by
    rw [← hrows]
    exact flatten_chunkList p.sampWidth hw0 A
  have hUni : ∀ r ∈ rows, r.length = p.sampWidth := by
    rw [← hrows]
    exact chunkList_uniform_of_dvd p.sampWidth hw0 A hdvd
  have hRmul : rows.length * p.sampWidth = A.length := by
    rw [← hrows]
    exact chunkList_count_mul p.sampWidth hw0 A hdvd
  have hRowVals : ∀ r ∈ rows, ∀ v ∈ r, v < 2 ^ p.bps := by
    intro r hr v hv
    apply hAvals
    rw [← hAflat]
    exact List.mem_flatten.mpr ⟨r, hr, hv⟩
  have hRlen : rows.length = A.length / p.sampWidth := by
    rw [← hRmul, Nat.mul_div_cancel _ (Nat.pos_of_ne_zero hw0)]
  obtain ⟨S, T, ST, hST⟩ : ∃ S T ST,
      sliceIndices a' b' c' rows.length = (S, T, ST) := ⟨_, _, _, rfl⟩
  obtain ⟨hS0, hSle, hT0, hTle, hSTeq⟩ :=
    sliceIndices_pos_bounds a' b' c' rows.length hstep
  rw [hST] at hS0 hSle hT0 hTle hSTeq
  dsimp only at hS0 hSle hT0 hTle hSTeq
  have hSTpos : 0 < ST := by
    rw [hSTeq]
    exact hstep
  obtain ⟨hJnd, hJrange, hJlen⟩ := sliceIdxs_natFacts S T ST hSTpos hS0 rows.length hTle
  obtain ⟨JN, hJN⟩ : ∃ J, (sliceIdxs S T ST).map Int.toNat = J := ⟨_, rfl⟩
  rw [hJN] at hJnd hJrange hJlen
  have hJIlen : (sliceIdxs S T ST).length = JN.length := by
    rw [← hJN, List.length_map]
  rw [npSelectRows_slc_eq rows a' b' c' p.complex_data p.sample_shape hc0, hST] at hget
  dsimp only at hget
  rw [hJN, hJIlen] at hget
  have holdval : (⟨JN.length :: p.sample_shape, p.complex_data,
      (gatherD rows [] JN).flatten⟩ : NDArr) = old :=
    Except.ok.inj (hget.symm.trans hold)
  have holdshape : old.shape = JN.length :: p.sample_shape := by
    rw [← holdval]
  have holdcx : old.isC = p.complex_data := by
    rw [← holdval]
  have holdflat : old.flat = (gatherD rows [] JN).flatten := by
    rw [← holdval]
  have holdlen : old.flat.length = JN.length * p.sampWidth := by
    rw [holdflat]
    exact gatherD_flatten_length rows JN p.sampWidth hUni hJrange
  have holdvals : ∀ v ∈ old.flat, v < 2 ^ p.bps := by
    rw [holdflat]
    exact gatherD_flatten_vals rows JN _ hRowVals
  have hxshape : x.shape = JN.length :: p.sample_shape := by
    rw [hxs, holdshape]
  have hxkind : x.isC = p.complex_data := by
    rw [hxc, holdcx]
  have hxflen : x.flat.length = JN.length * p.sampWidth := by
    rw [hxl, holdlen]
  obtain ⟨CX, hCX⟩ : ∃ C, chunkList p.sampWidth x.flat = C := ⟨_, rfl⟩
  have hwdvdx : p.sampWidth ∣ x.flat.length := ⟨JN.length, by rw [hxflen]; ring⟩
  have hCXuni : ∀ r ∈ CX, r.length = p.sampWidth := by
    rw [← hCX]
    exact chunkList_uniform_of_dvd p.sampWidth hw0 x.flat hwdvdx
  have hCXflat : CX.flatten = x.flat := by
    rw [← hCX]
    exact flatten_chunkList p.sampWidth hw0 x.flat
  have hCXcount : CX.length = JN.length := by
    have h1 : CX.length * p.sampWidth = x.flat.length := by
      rw [← hCX]
      exact chunkList_count_mul p.sampWidth hw0 x.flat hwdvdx
    rw [hxflen] at h1
    exact Nat.eq_of_mul_eq_mul_right (Nat.pos_of_ne_zero hw0) h1
  obtain ⟨rows2, hrows2⟩ : ∃ r, scatterRows rows JN CX = r := ⟨_, rfl⟩
  have hr2len : rows2.length = rows.length := by
    rw [← hrows2]
    exact scatterRows_length rows JN CX
  have hr2uni : ∀ r ∈ rows2, r.length = p.sampWidth := by
    rw [← hrows2]
    exact scatterRows_uniform rows JN CX p.sampWidth hUni hCXuni
  have hr2vals : ∀ v ∈ rows2.flatten, v < 2 ^ p.bps := by
    intro v hv
    rcases List.mem_flatten.mp hv with ⟨r, hr, hvr⟩
    rw [← hrows2] at hr
    rcases mem_scatterRows rows JN CX r hr with h1 | h2
    · exact hRowVals r h1 v hvr
    · refine hxv v ?_
      rw [← hCXflat]
      exact List.mem_flatten.mpr ⟨r, h2, hvr⟩
  have hflat2len : rows2.flatten.length = A.length := by
    rw [flatten_uniform_length rows2 p.sampWidth hr2uni, hr2len, hRmul]
  have hvpwdvd : (32 / p.bps) ∣ rows2.flatten.length := by
    rw [hflat2len, hAlen]
    exact ⟨(wseg p.words ws).length, by ring⟩
  obtain ⟨enc, hencok, hencdec, henclen⟩ :=
    encode_rows_ok p.bps hbps0 hdvd32 rows2.flatten hr2vals hvpwdvd
  have hxshape' : x.shape = (sliceIdxs (sliceIndices a' b' c' rows.length).1
      (sliceIndices a' b' c' rows.length).2.1
      (sliceIndices a' b' c' rows.length).2.2).length :: p.sample_shape := by
    rw [hST]
    dsimp only
    rw [hJIlen]
    exact hxshape
  have hassign : npAssignRows rows (.slc a' b' c') p.complex_data p.sample_shape x
      = .ok rows2 := by
    rw [npAssignRows_slc_exact rows a' b' c' p.complex_data p.sample_shape x
      hc0 hxkind hxshape', hST]
    dsimp only
    rw [hJN, show rowPitch p.complex_data p.sample_shape = p.sampWidth from rfl,
      hCX, hrows2]
  have hslowx : p.setEncodeSlow ws (.slc a' b' c') x = .ok enc := by
    rw [setEncodeSlow_eq p ws (.slc a' b' c') x hw0 (by rw [hA]; exact hdvd)]
    rw [hA, hrows, hassign]
    dsimp only
    exact hencok
  have hsetenc : (if p.fastCond (.slc a' b' c') x then p.setEncodeFast x
      else p.setEncodeSlow ws (.slc a' b' c') x) = .ok enc := by
    by_cases hf : p.fastCond (.slc a' b' c') x
    · rw [if_pos hf]
      have hf' := hf
      unfold VLBIPayloadBase.fastCond at hf'
      simp only [Bool.and_eq_true, beq_iff_eq] at hf'
      obtain ⟨⟨hds, _⟩, _⟩ := hf'
      injection hds with ha hb hc2
      subst ha
      subst hb
      subst hc2
      have h3 := sliceIndices_none3 rows.length
      rw [hST] at h3
      injection h3 with hS h3'
      injection h3' with hT hST1
      subst hS
      subst hT
      subst hST1
      have hJNR : JN.length = rows.length := by
        rw [← hJIlen]
        exact (sliceIdxs_full_map rows.length).2
      have hshapefull : x.shape =
          ((decodeWords p.bps (wseg p.words ws)).length / p.sampWidth) ::
            p.sample_shape := by
        rw [hA, ← hRlen, ← hJNR]
        exact hxshape
      have hlenfull : x.flat.length = (decodeWords p.bps (wseg p.words ws)).length := by
        rw [hA, hxflen, hJNR]
        exact hRmul
      have hfull := setEncodeSlow_full_exact p ws x hw0 hxkind
        (by rw [hA]; exact hdvd) hshapefull hlenfull
      rw [← hfull]
      exact hslowx
    · rw [if_neg hf]
      exact hslowx
  have hencl : enc.length =
      (ws.bounds p.words.length).2 - (ws.bounds p.words.length).1 := by
    have h1 : enc.length * (32 / p.bps) =
        ((ws.bounds p.words.length).2 - (ws.bounds p.words.length).1) *
          (32 / p.bps) := by
      rw [henclen, hflat2len, hAlen, wseg_length]
    exact Nat.eq_of_mul_eq_mul_right (vpw_pos p.bps hbps0 hdvd32) h1
  have hmaxlen : enc.length =
      max (ws.bounds p.words.length).1 (ws.bounds p.words.length).2 -
        (ws.bounds p.words.length).1 := by
    omega
  have hsplice := npSetSeg_exact p.words ws enc hmaxlen
  obtain ⟨W2, hW2⟩ : ∃ W, p.words.take (ws.bounds p.words.length).1 ++ enc ++
      p.words.drop (max (ws.bounds p.words.length).1 (ws.bounds p.words.length).2)
        = W := ⟨_, rfl⟩
  rw [hW2] at hsplice
  have hW2len : W2.length = p.words.length := by
    rw [← hW2]
    exact npSetSeg_exact_length p.words ws enc hmaxlen
  have hwseg1 : wseg W2 ws = enc := by
    rcases Nat.le_total (ws.bounds p.words.length).1 (ws.bounds p.words.length).2
      with hord | hord
    · rw [← hW2]
      exact wseg_splice p.words ws enc hord hencl
    · have hencnil : enc = [] := List.length_eq_zero.mp (by omega)
      have hW2eq : W2 = p.words := by
        rw [← hW2, hencnil, Nat.max_eq_left hord]
        simp only [List.append_nil]
        exact List.take_append_drop _ p.words
      have hlen0 : (wseg W2 ws).length = 0 := by
        rw [hW2eq, wseg_length]
        omega
      rw [List.length_eq_zero.mp hlen0, hencnil]
  obtain ⟨p1, hp1⟩ : ∃ q : VLBIPayloadBase, { p with words := W2 } = q := ⟨_, rfl⟩
  have hp1w : p1.words = W2 := by rw [← hp1]
  have hp1b : p1.bps = p.bps := by rw [← hp1]
  have hp1s : p1.sample_shape = p.sample_shape := by rw [← hp1]
  have hp1c : p1.complex_data = p.complex_data := by rw [← hp1]
  have hp1cls : p1.cls = p.cls := by rw [← hp1]
  have hp1sw : p1.sampWidth = p.sampWidth := by
    unfold VLBIPayloadBase.sampWidth
    rw [hp1c, hp1s]
  have hp1bpfs : p1.bpfs = p.bpfs := by
    unfold VLBIPayloadBase.bpfs
    rw [hp1b, hp1sw]
  have hp1n : p1.nsample = p.nsample := by
    unfold VLBIPayloadBase.nsample VLBIPayloadBase.size
    rw [hp1bpfs, hp1w, hW2len]
  have hits1 : p1.itemToSlices item = .ok (ws, .slc a' b' c') := by
    rw [itemToSlices_congr p1 p hp1n hp1bpfs item]
    exact hres
  have hchunk2 : chunkList p.sampWidth rows2.flatten = rows2 :=
    chunkList_flatten_uniform p.sampWidth hw0 rows2 hr2uni
  have hgat : gatherD rows2 [] JN = CX := by
    rw [← hrows2]
    exact gatherD_scatterRows rows JN CX [] hJnd hJrange hCXcount
  have hdvd1 : p1.sampWidth ∣ (decodeWords p1.bps (wseg p1.words ws)).length := by
    rw [hp1sw, hp1b, hp1w, hwseg1, hencdec, hflat2len]
    exact hdvd
  have hget1eq := getItem_nonfull_eq p1 item ws (.slc a' b' c') hnotfull hits1
    (by rw [hp1sw]; exact hw0) hdvd1
  rw [hp1sw, hp1b, hp1w, hp1c, hp1s, hwseg1, hencdec, hchunk2] at hget1eq
  rw [npSelectRows_slc_eq rows2 a' b' c' p.complex_data p.sample_shape hc0,
    hr2len, hST] at hget1eq
  dsimp only at hget1eq
  rw [hJN, hJIlen, hgat, hCXflat] at hget1eq
  have hxeq : (⟨JN.length :: p.sample_shape, p.complex_data, x.flat⟩ : NDArr) = x := by
    cases x with
    | mk xs xc xf =>
      dsimp only at hxshape hxkind
      rw [hxshape, hxkind]
  have henc2 := encodeToWords_decodeWords p.bps hbps0 hdvd32 (wseg p.words ws)
    (fun y hy => hwlt y (mem_wseg p.words ws y hy))
  rw [hA] at henc2
  have hoshape' : old.shape = (sliceIdxs (sliceIndices a' b' c' rows2.length).1
      (sliceIndices a' b' c' rows2.length).2.1
      (sliceIndices a' b' c' rows2.length).2.2).length :: p.sample_shape := by
    rw [hr2len, hST]
    dsimp only
    rw [hJIlen]
    exact holdshape
  have hassign2 : npAssignRows rows2 (.slc a' b' c') p.complex_data p.sample_shape old
      = .ok rows := by
    rw [npAssignRows_slc_exact rows2 a' b' c' p.complex_data p.sample_shape old
      hc0 holdcx hoshape', hr2len, hST]
    dsimp only
    rw [hJN, show rowPitch p.complex_data p.sample_shape = p.sampWidth from rfl,
      holdflat]
    have hgu : ∀ r ∈ gatherD rows [] JN, r.length = p.sampWidth :=
      gatherD_uniform rows JN p.sampWidth hUni hJrange
    rw [chunkList_flatten_uniform p.sampWidth hw0 _ hgu, ← hrows2]
    rw [scatterRows_restore rows JN CX [] hJnd hJrange]
  have hslowold : p1.setEncodeSlow ws (.slc a' b' c') old = .ok (wseg p.words ws) := by
    rw [setEncodeSlow_eq p1 ws (.slc a' b' c') old (by rw [hp1sw]; exact hw0) hdvd1]
    rw [hp1sw, hp1b, hp1w, hp1c, hp1s, hwseg1, hencdec, hchunk2, hassign2]
    dsimp only
    rw [hAflat]
    exact henc2
  have hsetenc2 : (if p1.fastCond (.slc a' b' c') old then p1.setEncodeFast old
      else p1.setEncodeSlow ws (.slc a' b' c') old) = .ok (wseg p.words ws) := by
    by_cases hf : p1.fastCond (.slc a' b' c') old
    · rw [if_pos hf]
      have hf' := hf
      unfold VLBIPayloadBase.fastCond at hf'
      simp only [Bool.and_eq_true, beq_iff_eq] at hf'
      obtain ⟨⟨hds, _⟩, _⟩ := hf'
      injection hds with ha hb hc2
      subst ha
      subst hb
      subst hc2
      have h3 := sliceIndices_none3 rows.length
      rw [hST] at h3
      injection h3 with hS h3'
      injection h3' with hT hST1
      subst hS
      subst hT
      subst hST1
      have hJNR : JN.length = rows.length := by
        rw [← hJIlen]
        exact (sliceIdxs_full_map rows.length).2
      have hoshapefull : old.shape =
          ((decodeWords p1.bps (wseg p1.words ws)).length / p1.sampWidth) ::
            p1.sample_shape := by
        rw [hp1sw, hp1b, hp1w, hp1s, hwseg1, hencdec, hflat2len, ← hRlen, ← hJNR]
        exact holdshape
      have holenfull : old.flat.length =
          (decodeWords p1.bps (wseg p1.words ws)).length := by
        rw [hp1b, hp1w, hwseg1, hencdec, hflat2len, holdlen, hJNR]
        exact hRmul
      have hokind : old.isC = p1.complex_data := by
        rw [hp1c]
        exact holdcx
      have hfull := setEncodeSlow_full_exact p1 ws old
        (by rw [hp1sw]; exact hw0) hokind hdvd1 hoshapefull holenfull
      rw [← hfull]
      exact hslowold
    · rw [if_neg hf]
      exact hslowold
  have hsetseg2 : npSetSeg W2 ws (wseg p.words ws) = .ok p.words := by
    have hlen2 : (wseg p.words ws).length =
        max (ws.bounds W2.length).1 (ws.bounds W2.length).2 -
          (ws.bounds W2.length).1 := by
      rw [hW2len, wseg_length]
      omega
    rw [npSetSeg_exact W2 ws (wseg p.words ws) hlen2, hW2len]
    rcases Nat.le_total (ws.bounds p.words.length).1 (ws.bounds p.words.length).2
      with hord | hord
    · rw [Nat.max_eq_right hord]
      have hale : (ws.bounds p.words.length).1 ≤ p.words.length :=
        (WSlice_bounds_le ws p.words.length).1
      have htk : W2.take (ws.bounds p.words.length).1 =
          p.words.take (ws.bounds p.words.length).1 := by
        rw [← hW2, Nat.max_eq_right hord, List.append_assoc]
        exact take_len_append _ _ _
          (by rw [List.length_take]; exact Nat.min_eq_left hale)
      have hdr : W2.drop (ws.bounds p.words.length).2 =
          p.words.drop (ws.bounds p.words.length).2 := by
        rw [← hW2, Nat.max_eq_right hord]
        exact drop_len_append _ _ _
          (by simp only [List.length_append, List.length_take, hencl]; omega)
      rw [htk, hdr]
      have hfin := splice_self p.words (ws.bounds p.words.length).1
        (ws.bounds p.words.length).2 hord
      rw [show wseg p.words ws =
        (p.words.take (ws.bounds p.words.length).2).drop
          (ws.bounds p.words.length).1 from rfl]
      rw [hfin]
    · rw [Nat.max_eq_left hord]
      have hseg0 : (wseg p.words ws).length = 0 := by
        rw [wseg_length]
        omega
      have hencnil : enc = [] := List.length_eq_zero.mp (by omega)
      have hW2eq : W2 = p.words := by
        rw [← hW2, hencnil, Nat.max_eq_left hord]
        simp only [List.append_nil]
        exact List.take_append_drop _ p.words
      rw [List.length_eq_zero.mp hseg0, hW2eq]
      simp only [List.append_nil]
      rw [List.take_append_drop]
  have hset2 : p1.setItem item old = .ok { p1 with words := p.words } := by
    rw [setItem_nonfull_eq p1 item ws (.slc a' b' c') old hnotfull hits1, hsetenc2]
    dsimp only
    rw [hp1w, hsetseg2]
  have hpy : ({ p1 with words := p.words } : VLBIPayloadBase).pyEq p = true := by
    unfold VLBIPayloadBase.pyEq VLBIPayloadBase.shape VLBIPayloadBase.nsample
      VLBIPayloadBase.size VLBIPayloadBase.bpfs VLBIPayloadBase.sampWidth
      VLBIPayloadBase.dtypeIsComplex
    dsimp only
    rw [hp1cls, hp1b, hp1s, hp1c]
    simp
  refine ⟨p1, ?_, ?_, ⟨{ p1 with words := p.words }, hset2, hpy⟩⟩
  · rw [setItem_nonfull_eq p item ws (.slc a' b' c') x hnotfull hres, hsetenc]
    dsimp only
    rw [hsplice]
    dsimp only
    rw [hp1]
  · rw [hget1eq, hxeq]

theorem npSelectRows_idx_eq (rows : List (List Nat)) (o : Int) (cx : Bool)
    (ss : List Nat) (ho0 : 0 ≤ o) (holt : o < (rows.length : Int)) :
    npSelectRows rows (.idx o) cx ss = .ok ⟨ss, cx, rows.getD o.toNat []⟩ := by
  simp only [npSelectRows]
  rw [if_neg (Int.not_lt.mpr ho0), if_neg (not_not_intro ⟨ho0, holt⟩)]

theorem npAssignRows_idx_exact (rows : List (List Nat)) (o : Int) (cx : Bool)
    (ss : List Nat) (x : NDArr) (ho0 : 0 ≤ o) (holt : o < (rows.length : Int))
    (hkind : x.isC = cx) (hshape : x.shape = ss) :
    npAssignRows rows (.idx o) cx ss x = .ok (rows.set o.toNat x.flat) := by
  simp only [npAssignRows]
  rw [if_neg (Int.not_lt.mpr ho0), if_neg (not_not_intro ⟨ho0, holt⟩)]
  rw [broadcastFlat.eq_def, if_pos hshape, kindCast, if_pos hkind]
  rfl

/-- Set-then-get-then-restore engine for integer data indices: writing
shape-exact data through any non-full item that resolves to an in-range
integer data index succeeds, reading the item back returns exactly the
written data, and writing the original item value back restores a payload
`==`-equal to the original. -/
theorem engine_idx (p : VLBIPayloadBase) (item : PyIdx) (hwf : p.WF)
    (ws : WSlice) (o : Int)
    (hnotfull : ¬(item = .tup [] ∨ item = .slc none none none))
    (hres : p.itemToSlices item = .ok (ws, .idx o))
    (hdvd : p.sampWidth ∣ (decodeWords p.bps (wseg p.words ws)).length)
    (ho0 : 0 ≤ o)
    (holt : o < (((decodeWords p.bps (wseg p.words ws)).length / p.sampWidth : Nat) : Int))
    (x old : NDArr)
    (hold : p.getItem item = .ok old)
    (hxs : x.shape = old.shape) (hxc : x.isC = old.isC)
    (hxl : x.flat.length = old.flat.length)
    (hxv : ∀ v ∈ x.flat, v < 2 ^ p.bps) :
    ∃ p', p.setItem item x = .ok p' ∧ p'.getItem item = .ok x ∧
      ∃ p'', p'.setItem item old = .ok p'' ∧ p''.pyEq p = true := by
  obtain ⟨hbps0, hdvd32, hprod, hszdvd, hwlt⟩ := hwf
  have hw0 : p.sampWidth ≠ 0 := by
    unfold VLBIPayloadBase.sampWidth
    have h1 : 0 < (if p.complex_data then 2 else 1) := by
      cases p.complex_data <;> norm_num
    exact (Nat.mul_pos h1 hprod).ne'
  have hget := getItem_nonfull_eq p item ws (.idx o) hnotfull hres hw0 hdvd
  obtain ⟨A, hA⟩ : ∃ A, decodeWords p.bps (wseg p.words ws) = A := ⟨_, rfl⟩
  rw [hA] at hdvd hget holt
  obtain ⟨rows, hrows⟩ : ∃ r, chunkList p.sampWidth A = r := ⟨_, rfl⟩
  rw [hrows] at hget
  have hAlen : A.length = (wseg p.words ws).length * (32 / p.bps) := by
    rw [← hA]
    exact decodeWords_length p.bps (wseg p.words ws)
  have hAvals : ∀ v ∈ A, v < 2 ^ p.bps := by
    rw [← hA]
    exact mem_decodeWords_lt p.bps (wseg p.words ws)
  have hAflat : rows.flatten = A := by
    rw [← hrows]
    exact flatten_chunkList p.sampWidth hw0 A
  have hUni : ∀ r ∈ rows, r.length = p.sampWidth := by
    rw [← hrows]
    exact chunkList_uniform_of_dvd p.sampWidth hw0 A hdvd
  have hRmul : rows.length * p.sampWidth = A.length := by
    rw [← hrows]
    exact chunkList_count_mul p.sampWidth hw0 A hdvd
  have hRowVals : ∀ r ∈ rows, ∀ v ∈ r, v < 2 ^ p.bps := by
    intro r hr v hv
    apply hAvals
    rw [← hAflat]
    exact List.mem_flatten.mpr ⟨r, hr, hv⟩
  have hRlen : rows.length = A.length / p.sampWidth := by
    rw [← hRmul, Nat.mul_div_cancel _ (Nat.pos_of_ne_zero hw0)]
  have holt' : o < (rows.length : Int) := by
    rw [hRlen]
    exact holt
  have hoNat : o.toNat < rows.length := by omega
  rw [npSelectRows_idx_eq rows o p.complex_data p.sample_shape ho0 holt'] at hget
  have holdval : (⟨p.sample_shape, p.complex_data, rows.getD o.toNat []⟩ : NDArr)
      = old := Except.ok.inj (hget.symm.trans hold)
  have holdshape : old.shape = p.sample_shape := by
    rw [← holdval]
  have holdcx : old.isC = p.complex_data := by
    rw [← holdval]
  have holdflat : old.flat = rows.getD o.toNat [] := by
    rw [← holdval]
  have holdlen : old.flat.length = p.sampWidth := by
    rw [holdflat]
    exact hUni _ (getD_mem_of_lt rows o.toNat [] hoNat)
  have hxshape : x.shape = p.sample_shape := by
    rw [hxs, holdshape]
  have hxkind : x.isC = p.complex_data := by
    rw [hxc, holdcx]
  have hxflen : x.flat.length = p.sampWidth := by
    rw [hxl, holdlen]
  obtain ⟨rows2, hrows2⟩ : ∃ r, rows.set o.toNat x.flat = r := ⟨_, rfl⟩
  have hr2len : rows2.length = rows.length := by
    rw [← hrows2]
    exact List.length_set rows o.toNat x.flat
  have hr2uni : ∀ r ∈ rows2, r.length = p.sampWidth := by
    intro r hr
    rw [← hrows2] at hr
    rcases List.mem_or_eq_of_mem_set hr with h | h
    · exact hUni r h
    · rw [h]
      exact hxflen
  have hr2vals : ∀ v ∈ rows2.flatten, v < 2 ^ p.bps := by
    intro v hv
    rcases List.mem_flatten.mp hv with ⟨r, hr, hvr⟩
    rw [← hrows2] at hr
    rcases List.mem_or_eq_of_mem_set hr with h | h
    · exact hRowVals r h v hvr
    · refine hxv v ?_
      rw [← h]
      exact hvr
  have hflat2len : rows2.flatten.length = A.length := by
    rw [flatten_uniform_length rows2 p.sampWidth hr2uni, hr2len, hRmul]
  have hvpwdvd : (32 / p.bps) ∣ rows2.flatten.length := by
    rw [hflat2len, hAlen]
    exact ⟨(wseg p.words ws).length, by ring⟩
  obtain ⟨enc, hencok, hencdec, henclen⟩ :=
    encode_rows_ok p.bps hbps0 hdvd32 rows2.flatten hr2vals hvpwdvd
  have hassign : npAssignRows rows (.idx o) p.complex_data p.sample_shape x
      = .ok rows2 := by
    rw [npAssignRows_idx_exact rows o p.complex_data p.sample_shape x ho0 holt'
      hxkind hxshape, hrows2]
  have hslowx : p.setEncodeSlow ws (.idx o) x = .ok enc := by
    rw [setEncodeSlow_eq p ws (.idx o) x hw0 (by rw [hA]; exact hdvd)]
    rw [hA, hrows, hassign]
    dsimp only
    exact hencok
  have hfcx : p.fastCond (.idx o) x = false := by
    unfold VLBIPayloadBase.fastCond
    have h1 : (DataIdx.idx o == DataIdx.slc none none none) = false :=
      beq_eq_false_iff_ne.mpr (fun h => DataIdx.noConfusion h)
    rw [h1, Bool.false_and, Bool.false_and]
  have hsetenc : (if p.fastCond (.idx o) x then p.setEncodeFast x
      else p.setEncodeSlow ws (.idx o) x) = .ok enc := by
    rw [if_neg (by rw [hfcx]; exact Bool.false_ne_true)]
    exact hslowx
  have hencl : enc.length =
      (ws.bounds p.words.length).2 - (ws.bounds p.words.length).1 := by
    have h1 : enc.length * (32 / p.bps) =
        ((ws.bounds p.words.length).2 - (ws.bounds p.words.length).1) *
          (32 / p.bps) := by
      rw [henclen, hflat2len, hAlen, wseg_length]
    exact Nat.eq_of_mul_eq_mul_right (vpw_pos p.bps hbps0 hdvd32) h1
  have hmaxlen : enc.length =
      max (ws.bounds p.words.length).1 (ws.bounds p.words.length).2 -
        (ws.bounds p.words.length).1 := by
    omega
  have hsplice := npSetSeg_exact p.words ws enc hmaxlen
  obtain ⟨W2, hW2⟩ : ∃ W, p.words.take (ws.bounds p.words.length).1 ++ enc ++
      p.words.drop (max (ws.bounds p.words.length).1 (ws.bounds p.words.length).2)
        = W := ⟨_, rfl⟩
  rw [hW2] at hsplice
  have hW2len : W2.length = p.words.length := by
    rw [← hW2]
    exact npSetSeg_exact_length p.words ws enc hmaxlen
  have hwseg1 : wseg W2 ws = enc := by
    rcases Nat.le_total (ws.bounds p.words.length).1 (ws.bounds p.words.length).2
      with hord | hord
    · rw [← hW2]
      exact wseg_splice p.words ws enc hord hencl
    · have hencnil : enc = [] := List.length_eq_zero.mp (by omega)
      have hW2eq : W2 = p.words := by
        rw [← hW2, hencnil, Nat.max_eq_left hord]
        simp only [List.append_nil]
        exact List.take_append_drop _ p.words
      have hlen0 : (wseg W2 ws).length = 0 := by
        rw [hW2eq, wseg_length]
        omega
      rw [List.length_eq_zero.mp hlen0, hencnil]
  obtain ⟨p1, hp1⟩ : ∃ q : VLBIPayloadBase, { p with words := W2 } = q := ⟨_, rfl⟩
  have hp1w : p1.words = W2 := by rw [← hp1]
  have hp1b : p1.bps = p.bps := by rw [← hp1]
  have hp1s : p1.sample_shape = p.sample_shape := by rw [← hp1]
  have hp1c : p1.complex_data = p.complex_data := by rw [← hp1]
  have hp1cls : p1.cls = p.cls := by rw [← hp1]
  have hp1sw : p1.sampWidth = p.sampWidth := by
    unfold VLBIPayloadBase.sampWidth
    rw [hp1c, hp1s]
  have hp1bpfs : p1.bpfs = p.bpfs := by
    unfold VLBIPayloadBase.bpfs
    rw [hp1b, hp1sw]
  have hp1n : p1.nsample = p.nsample := by
    unfold VLBIPayloadBase.nsample VLBIPayloadBase.size
    rw [hp1bpfs, hp1w, hW2len]
  have hits1 : p1.itemToSlices item = .ok (ws, .idx o) := by
    rw [itemToSlices_congr p1 p hp1n hp1bpfs item]
    exact hres
  have hchunk2 : chunkList p.sampWidth rows2.flatten = rows2 :=
    chunkList_flatten_uniform p.sampWidth hw0 rows2 hr2uni
  have hgetD2 : rows2.getD o.toNat [] = x.flat := by
    rw [← hrows2]
    exact getD_set_self rows o.toNat hoNat x.flat []
  have hdvd1 : p1.sampWidth ∣ (decodeWords p1.bps (wseg p1.words ws)).length := by
    rw [hp1sw, hp1b, hp1w, hwseg1, hencdec, hflat2len]
    exact hdvd
  have holt2 : o < (rows2.length : Int) := by
    rw [hr2len]
    exact holt'
  have hget1eq := getItem_nonfull_eq p1 item ws (.idx o) hnotfull hits1
    (by rw [hp1sw]; exact hw0) hdvd1
  rw [hp1sw, hp1b, hp1w, hp1c, hp1s, hwseg1, hencdec, hchunk2] at hget1eq
  rw [npSelectRows_idx_eq rows2 o p.complex_data p.sample_shape ho0 holt2,
    hgetD2] at hget1eq
  have hxeq : (⟨p.sample_shape, p.complex_data, x.flat⟩ : NDArr) = x := by
    cases x with
    | mk xs xc xf =>
      dsimp only at hxshape hxkind
      rw [hxshape, hxkind]
  have henc2 := encodeToWords_decodeWords p.bps hbps0 hdvd32 (wseg p.words ws)
    (fun y hy => hwlt y (mem_wseg p.words ws y hy))
  rw [hA] at henc2
  have hassign2 : npAssignRows rows2 (.idx o) p.complex_data p.sample_shape old
      = .ok rows := by
    rw [npAssignRows_idx_exact rows2 o p.complex_data p.sample_shape old ho0 holt2
      holdcx holdshape, holdflat, ← hrows2, List.set_set,
      set_getD_self rows o.toNat hoNat]
  have hslowold : p1.setEncodeSlow ws (.idx o) old = .ok (wseg p.words ws) := by
    rw [setEncodeSlow_eq p1 ws (.idx o) old (by rw [hp1sw]; exact hw0) hdvd1]
    rw [hp1sw, hp1b, hp1w, hp1c, hp1s, hwseg1, hencdec, hchunk2, hassign2]
    dsimp only
    rw [hAflat]
    exact henc2
  have hfco : p1.fastCond (.idx o) old = false := by
    unfold VLBIPayloadBase.fastCond
    have h1 : (DataIdx.idx o == DataIdx.slc none none none) = false :=
      beq_eq_false_iff_ne.mpr (fun h => DataIdx.noConfusion h)
    rw [h1, Bool.false_and, Bool.false_and]
  have hsetenc2 : (if p1.fastCond (.idx o) old then p1.setEncodeFast old
      else p1.setEncodeSlow ws (.idx o) old) = .ok (wseg p.words ws) := by
    rw [if_neg (by rw [hfco]; exact Bool.false_ne_true)]
    exact hslowold
  have hsetseg2 : npSetSeg W2 ws (wseg p.words ws) = .ok p.words := by
    have hlen2 : (wseg p.words ws).length =
        max (ws.bounds W2.length).1 (ws.bounds W2.length).2 -
          (ws.bounds W2.length).1 := by
      rw [hW2len, wseg_length]
      omega
    rw [npSetSeg_exact W2 ws (wseg p.words ws) hlen2, hW2len]
    rcases Nat.le_total (ws.bounds p.words.length).1 (ws.bounds p.words.length).2
      with hord | hord
    · rw [Nat.max_eq_right hord]
      have hale : (ws.bounds p.words.length).1 ≤ p.words.length :=
        (WSlice_bounds_le ws p.words.length).1
      have htk : W2.take (ws.bounds p.words.length).1 =
          p.words.take (ws.bounds p.words.length).1 := by
        rw [← hW2, Nat.max_eq_right hord, List.append_assoc]
        exact take_len_append _ _ _
          (by rw [List.length_take]; exact Nat.min_eq_left hale)
      have hdr : W2.drop (ws.bounds p.words.length).2 =
          p.words.drop (ws.bounds p.words.length).2 := by
        rw [← hW2, Nat.max_eq_right hord]
        exact drop_len_append _ _ _
          (by simp only [List.length_append, List.length_take, hencl]; omega)
      rw [htk, hdr]
      have hfin := splice_self p.words (ws.bounds p.words.length).1
        (ws.bounds p.words.length).2 hord
      rw [show wseg p.words ws =
        (p.words.take (ws.bounds p.words.length).2).drop
          (ws.bounds p.words.length).1 from rfl]
      rw [hfin]
    · rw [Nat.max_eq_left hord]
      have hseg0 : (wseg p.words ws).length = 0 := by
        rw [wseg_length]
        omega
      have hencnil : enc = [] := List.length_eq_zero.mp (by omega)
      have hW2eq : W2 = p.words := by
        rw [← hW2, hencnil, Nat.max_eq_left hord]
        simp only [List.append_nil]
        exact List.take_append_drop _ p.words
      rw [List.length_eq_zero.mp hseg0, hW2eq]
      simp only [List.append_nil]
      rw [List.take_append_drop]
  have hset2 : p1.setItem item old = .ok { p1 with words := p.words } := by
    rw [setItem_nonfull_eq p1 item ws (.idx o) old hnotfull hits1, hsetenc2]
    dsimp only
    rw [hp1w, hsetseg2]
  have hpy : ({ p1 with words := p.words } : VLBIPayloadBase).pyEq p = true := by
    unfold VLBIPayloadBase.pyEq VLBIPayloadBase.shape VLBIPayloadBase.nsample
      VLBIPayloadBase.size VLBIPayloadBase.bpfs VLBIPayloadBase.sampWidth
      VLBIPayloadBase.dtypeIsComplex
    dsimp only
    rw [hp1cls, hp1b, hp1s, hp1c]
    simp
  refine ⟨p1, ?_, ?_, ⟨{ p1 with words := p.words }, hset2, hpy⟩⟩
  · rw [setItem_nonfull_eq p item ws (.idx o) x hnotfull hres, hsetenc]
    dsimp only
    rw [hsplice]
    dsimp only
    rw [hp1]
  · rw [hget1eq, hxeq]

theorem wseg_all (l : List α) : wseg l WSlice.all = l := by
  unfold wseg
  dsimp only [WSlice.bounds]
  rw [List.drop_zero, List.take_length]

theorem sampWidth_ne_zero (p : VLBIPayloadBase) (hprod : 0 < p.sample_shape.prod) :
    p.sampWidth ≠ 0 := by
  unfold VLBIPayloadBase.sampWidth
  have h1 : 0 < (if p.complex_data then 2 else 1) := by
    cases p.complex_data <;> norm_num
  exact (Nat.mul_pos h1 hprod).ne'

theorem nsample_mul_sampWidth (p : VLBIPayloadBase) (hwf : p.WF) :
    p.nsample * p.sampWidth = p.words.length * (32 / p.bps) := by
  obtain ⟨hbps0, hdvd32, hprod, hszdvd, _⟩ := hwf
  have hw0 : p.sampWidth ≠ 0 := sampWidth_ne_zero p hprod
  have hbpfs0 : 0 < p.bpfs := by
    unfold VLBIPayloadBase.bpfs
    exact Nat.mul_pos hbps0 (Nat.pos_of_ne_zero hw0)
  obtain ⟨k, hk⟩ := hszdvd
  have hns : p.nsample = k := by
    unfold VLBIPayloadBase.nsample
    rw [hk]
    exact Nat.mul_div_cancel_left k hbpfs0
  have h1 : p.nsample * p.sampWidth * p.bps =
      p.words.length * (32 / p.bps) * p.bps := by
    have hL : p.nsample * p.sampWidth * p.bps = p.size * 8 := by
      rw [hns]
      unfold VLBIPayloadBase.bpfs at hk
      rw [hk]
      ring
    have hR : p.words.length * (32 / p.bps) * p.bps = p.size * 8 := by
      rw [Nat.mul_assoc, Nat.mul_comm (32 / p.bps) p.bps, bps_mul_vpw p.bps hdvd32]
      unfold VLBIPayloadBase.size
      ring
    rw [hL, hR]
  exact Nat.eq_of_mul_eq_mul_right hbps0 h1

/-- Set-then-get-then-restore engine for the full item (`()` or `[:]`):
writing full-shape data succeeds, reading back returns it, and restoring the
original full value gives a payload `==`-equal to the original. -/
theorem engine_full (p : VLBIPayloadBase) (item : PyIdx) (hwf : p.WF)
    (hfull : item = .tup [] ∨ item = .slc none none none)
    (x old : NDArr)
    (hold : p.getItem item = .ok old)
    (hxs : x.shape = old.shape) (hxc : x.isC = old.isC)
    (hxl : x.flat.length = old.flat.length)
    (hxv : ∀ v ∈ x.flat, v < 2 ^ p.bps) :
    ∃ p', p.setItem item x = .ok p' ∧ p'.getItem item = .ok x ∧
      ∃ p'', p'.setItem item old = .ok p'' ∧ p''.pyEq p = true := by
  have hnsw := nsample_mul_sampWidth p hwf
  obtain ⟨hbps0, hdvd32, hprod, hszdvd, hwlt⟩ := hwf
  have hw0 : p.sampWidth ≠ 0 := sampWidth_ne_zero p hprod
  obtain ⟨A, hA⟩ : ∃ A, decodeWords p.bps p.words = A := ⟨_, rfl⟩
  have hAlen : A.length = p.words.length * (32 / p.bps) := by
    rw [← hA]
    exact decodeWords_length p.bps p.words
  have hAn : A.length = p.nsample * p.sampWidth := by
    rw [hAlen, hnsw]
  have hget : p.getItem item = .ok ⟨p.shape, p.complex_data, A⟩ := by
    simp only [VLBIPayloadBase.getItem]
    rw [if_pos hfull, hA, if_pos hAn]
  have holdval : (⟨p.shape, p.complex_data, A⟩ : NDArr) = old :=
    Except.ok.inj (hget.symm.trans hold)
  have holdshape : old.shape = p.shape := by
    rw [← holdval]
  have holdcx : old.isC = p.complex_data := by
    rw [← holdval]
  have holdflat : old.flat = A := by
    rw [← holdval]
  have hxshape : x.shape = p.shape := by
    rw [hxs, holdshape]
  have hxkind : x.isC = p.complex_data := by
    rw [hxc, holdcx]
  have hxflen : x.flat.length = A.length := by
    rw [hxl, holdflat]
  have hNdiv : A.length / p.sampWidth = p.nsample := by
    rw [hAn, Nat.mul_div_cancel _ (Nat.pos_of_ne_zero hw0)]
  have hvdvdx : (32 / p.bps) ∣ x.flat.length := by
    rw [hxflen, hAlen]
    exact ⟨p.words.length, Nat.mul_comm _ _⟩
  obtain ⟨enc, hencok, hencdec, henclen⟩ :=
    encode_rows_ok p.bps hbps0 hdvd32 x.flat hxv hvdvdx
  have hdvdall : p.sampWidth ∣ (decodeWords p.bps (wseg p.words WSlice.all)).length := by
    rw [wseg_all, hA, hAn]
    exact ⟨p.nsample, Nat.mul_comm _ _⟩
  have hsetenc : (if p.fastCond (.slc none none none) x then p.setEncodeFast x
      else p.setEncodeSlow WSlice.all (.slc none none none) x) = .ok enc := by
    by_cases hf : p.fastCond (.slc none none none) x
    · rw [if_pos hf]
      exact hencok
    · rw [if_neg hf]
      have hsh : x.shape =
          ((decodeWords p.bps (wseg p.words WSlice.all)).length / p.sampWidth) ::
            p.sample_shape := by
        rw [wseg_all, hA, hNdiv]
        rw [hxshape]
        rfl
      have hln : x.flat.length = (decodeWords p.bps (wseg p.words WSlice.all)).length := by
        rw [wseg_all, hA]
        exact hxflen
      rw [setEncodeSlow_full_exact p WSlice.all x hw0 hxkind hdvdall hsh hln]
      exact hencok
  have hencl : enc.length = p.words.length := by
    have h1 : enc.length * (32 / p.bps) = p.words.length * (32 / p.bps) := by
      rw [henclen, hxflen, hAlen]
    exact Nat.eq_of_mul_eq_mul_right (vpw_pos p.bps hbps0 hdvd32) h1
  have hsetseg : npSetSeg p.words WSlice.all enc = .ok enc := by
    unfold npSetSeg
    dsimp only [WSlice.bounds]
    rw [Nat.max_eq_right (Nat.zero_le _), Nat.sub_zero, if_pos hencl]
    simp [List.drop_length]
  have hset1 : p.setItem item x = .ok { p with words := enc } := by
    simp only [VLBIPayloadBase.setItem]
    rw [if_pos hfull]
    dsimp only
    rw [hsetenc]
    dsimp only
    rw [hsetseg]
  obtain ⟨p1, hp1⟩ : ∃ q : VLBIPayloadBase, { p with words := enc } = q := ⟨_, rfl⟩
  have hp1w : p1.words = enc := by rw [← hp1]
  have hp1b : p1.bps = p.bps := by rw [← hp1]
  have hp1s : p1.sample_shape = p.sample_shape := by rw [← hp1]
  have hp1c : p1.complex_data = p.complex_data := by rw [← hp1]
  have hp1cls : p1.cls = p.cls := by rw [← hp1]
  have hp1sw : p1.sampWidth = p.sampWidth := by
    unfold VLBIPayloadBase.sampWidth
    rw [hp1c, hp1s]
  have hp1bpfs : p1.bpfs = p.bpfs := by
    unfold VLBIPayloadBase.bpfs
    rw [hp1b, hp1sw]
  have hp1n : p1.nsample = p.nsample := by
    unfold VLBIPayloadBase.nsample VLBIPayloadBase.size
    rw [hp1bpfs, hp1w, hencl]
  have hp1shape : p1.shape = p.shape := by
    unfold VLBIPayloadBase.shape
    rw [hp1n, hp1s]
  have hget1 : p1.getItem item = .ok x := by
    simp only [VLBIPayloadBase.getItem]
    rw [if_pos hfull, hp1b, hp1w, hencdec]
    rw [if_pos (by rw [hxflen, hAn, hp1n, hp1sw])]
    rw [hp1shape, hp1c, ← hxshape, ← hxkind]
  have henc2 := encodeToWords_decodeWords p.bps hbps0 hdvd32 p.words hwlt
  rw [hA] at henc2
  have hsetenc2 : (if p1.fastCond (.slc none none none) old then p1.setEncodeFast old
      else p1.setEncodeSlow WSlice.all (.slc none none none) old) = .ok p.words := by
    have hfastval : p1.setEncodeFast old = .ok p.words := by
      unfold VLBIPayloadBase.setEncodeFast
      rw [hp1b, holdflat]
      exact henc2
    by_cases hf : p1.fastCond (.slc none none none) old
    · rw [if_pos hf]
      exact hfastval
    · rw [if_neg hf]
      have hdvd1 : p1.sampWidth ∣
          (decodeWords p1.bps (wseg p1.words WSlice.all)).length := by
        rw [hp1sw, hp1b, hp1w, wseg_all, hencdec, hxflen, hAn]
        exact ⟨p.nsample, Nat.mul_comm _ _⟩
      have hsh : old.shape =
          ((decodeWords p1.bps (wseg p1.words WSlice.all)).length / p1.sampWidth) ::
            p1.sample_shape := by
        rw [hp1sw, hp1b, hp1w, hp1s, wseg_all, hencdec, hxflen, hNdiv]
        rw [holdshape]
        rfl
      have hln : old.flat.length =
          (decodeWords p1.bps (wseg p1.words WSlice.all)).length := by
        rw [hp1b, hp1w, wseg_all, hencdec, ← hxl]
      have hokind : old.isC = p1.complex_data := by
        rw [hp1c]
        exact holdcx
      rw [setEncodeSlow_full_exact p1 WSlice.all old
        (by rw [hp1sw]; exact hw0) hokind hdvd1 hsh hln]
      exact hfastval
  have hsetseg2 : npSetSeg p1.words WSlice.all p.words = .ok p.words := by
    unfold npSetSeg
    dsimp only [WSlice.bounds]
    rw [Nat.max_eq_right (Nat.zero_le _), Nat.sub_zero,
      if_pos (by rw [hp1w, hencl])]
    simp [List.drop_length]
  have hset2 : p1.setItem item old = .ok { p1 with words := p.words } := by
    simp only [VLBIPayloadBase.setItem]
    rw [if_pos hfull]
    dsimp only
    rw [hsetenc2]
    dsimp only
    rw [hsetseg2]
  have hpy : ({ p1 with words := p.words } : VLBIPayloadBase).pyEq p = true := by
    unfold VLBIPayloadBase.pyEq VLBIPayloadBase.shape VLBIPayloadBase.nsample
      VLBIPayloadBase.size VLBIPayloadBase.bpfs VLBIPayloadBase.sampWidth
      VLBIPayloadBase.dtypeIsComplex
    dsimp only
    rw [hp1cls, hp1b, hp1s, hp1c]
    simp
  exact ⟨p1, hp1 ▸ hset1, hget1, ⟨{ p1 with words := p.words }, hset2, hpy⟩⟩

theorem WSlice_bounds_of_nonneg_le (lo hi : Int) (len : Nat)
    (h0 : 0 ≤ lo) (h0' : 0 ≤ hi) (hle : lo ≤ (len : Int)) (hle' : hi ≤ (len : Int)) :
    (WSlice.rng lo hi).bounds len = (lo.toNat, hi.toNat) := by
  unfold WSlice.bounds
  dsimp only
  rw [if_neg (Int.not_lt.mpr h0), if_neg (Int.not_lt.mpr h0')]
  rw [min_eq_left hle, min_eq_left hle']

theorem toNat_mul_nat (i : Int) (w : Nat) (h : 0 ≤ i) :
    (i * (w : Int)).toNat = i.toNat * w := by
  lift i to ℕ using h with n
  norm_cast

theorem nsample_mul_bpfs (p : VLBIPayloadBase) (hwf : p.WF) :
    p.nsample * p.bpfs = p.words.length * 32 := by
  have hnsw := nsample_mul_sampWidth p hwf
  obtain ⟨hbps0, hdvd32, hprod, hszdvd, _⟩ := hwf
  have h1 : p.nsample * p.bpfs = (p.nsample * p.sampWidth) * p.bps := by
    unfold VLBIPayloadBase.bpfs
    ring
  rw [h1, hnsw, Nat.mul_assoc, Nat.mul_comm (32 / p.bps) p.bps,
    bps_mul_vpw p.bps hdvd32]

theorem sampWidth_eq_wpfs_mul (p : VLBIPayloadBase) (hwf : p.WF)
    (hb32 : p.bpfs % 32 = 0) :
    p.sampWidth = (p.bpfs / 32) * (32 / p.bps) := by
  obtain ⟨hbps0, hdvd32, hprod, hszdvd, _⟩ := hwf
  have hbpfseq : 32 * (p.bpfs / 32) = p.bpfs :=
    Nat.mul_div_cancel' (Nat.dvd_of_mod_eq_zero hb32)
  have h2 : p.sampWidth * p.bps = (p.bpfs / 32) * (32 / p.bps) * p.bps := by
    have hL : p.sampWidth * p.bps = p.bpfs := by
      unfold VLBIPayloadBase.bpfs
      ring
    have hR : (p.bpfs / 32) * (32 / p.bps) * p.bps = p.bpfs := by
      rw [Nat.mul_assoc, Nat.mul_comm (32 / p.bps) p.bps, bps_mul_vpw p.bps hdvd32,
        Nat.mul_comm (p.bpfs / 32) 32, hbpfseq]
    rw [hL, hR]
  exact Nat.eq_of_mul_eq_mul_right hbps0 h2

theorem words_len_b (p : VLBIPayloadBase) (hwf : p.WF) (hb32 : p.bpfs % 32 = 0) :
    p.words.length = p.nsample * (p.bpfs / 32) := by
  have h32len := nsample_mul_bpfs p hwf
  have hbpfseq : 32 * (p.bpfs / 32) = p.bpfs :=
    Nat.mul_div_cancel' (Nat.dvd_of_mod_eq_zero hb32)
  have h2 : p.nsample * (p.bpfs / 32) * 32 = p.words.length * 32 := by
    rw [← h32len]
    nth_rewrite 2 [← hbpfseq]
    ring
  exact (Nat.eq_of_mul_eq_mul_right (by norm_num) h2).symm

theorem vpw_eq_fspw_mul (p : VLBIPayloadBase) (hwf : p.WF)
    (h32b : 32 % p.bpfs = 0) :
    32 / p.bps = (32 / p.bpfs) * p.sampWidth := by
  obtain ⟨hbps0, hdvd32, hprod, hszdvd, _⟩ := hwf
  have hbpfseq : p.bpfs * (32 / p.bpfs) = 32 :=
    Nat.mul_div_cancel' (Nat.dvd_of_mod_eq_zero h32b)
  have h2 : (32 / p.bps) * p.bps = (32 / p.bpfs) * p.sampWidth * p.bps := by
    rw [Nat.mul_comm (32 / p.bps) p.bps, bps_mul_vpw p.bps hdvd32]
    have hR : (32 / p.bpfs) * p.sampWidth * p.bps = p.bpfs * (32 / p.bpfs) := by
      unfold VLBIPayloadBase.bpfs
      ring
    rw [hR, hbpfseq]
  exact Nat.eq_of_mul_eq_mul_right hbps0 h2

theorem nsample_len_c (p : VLBIPayloadBase) (hwf : p.WF) (h32b : 32 % p.bpfs = 0) :
    p.nsample = p.words.length * (32 / p.bpfs) := by
  have h32len := nsample_mul_bpfs p hwf
  obtain ⟨hbps0, hdvd32, hprod, hszdvd, _⟩ := hwf
  have hw0 : p.sampWidth ≠ 0 := sampWidth_ne_zero p hprod
  have hbpfs0 : 0 < p.bpfs := by
    unfold VLBIPayloadBase.bpfs
    exact Nat.mul_pos hbps0 (Nat.pos_of_ne_zero hw0)
  have hbpfseq : p.bpfs * (32 / p.bpfs) = 32 :=
    Nat.mul_div_cancel' (Nat.dvd_of_mod_eq_zero h32b)
  have h2 : p.nsample * p.bpfs = p.words.length * (32 / p.bpfs) * p.bpfs := by
    rw [h32len, Nat.mul_assoc, Nat.mul_comm (32 / p.bpfs) p.bpfs, hbpfseq]
  exact Nat.eq_of_mul_eq_mul_right hbpfs0 h2

theorem int_ofNat_eq (n : Nat) : Int.ofNat n = (n : Int) := rfl

theorem WSlice_bounds_of_nonneg (lo hi : Int) (len : Nat)
    (h0 : 0 ≤ lo) (h0' : 0 ≤ hi) :
    (WSlice.rng lo hi).bounds len =
      ((min lo (len : Int)).toNat, (min hi (len : Int)).toNat) := by
  unfold WSlice.bounds
  dsimp only
  rw [if_neg (Int.not_lt.mpr h0), if_neg (Int.not_lt.mpr h0')]

theorem all_dvd (p : VLBIPayloadBase) (hwf : p.WF) :
    p.sampWidth ∣ (decodeWords p.bps (wseg p.words WSlice.all)).length := by
  rw [wseg_all, decodeWords_length, ← nsample_mul_sampWidth p hwf]
  exact ⟨p.nsample, Nat.mul_comm _ _⟩

theorem rng_c_dvd (p : VLBIPayloadBase) (hwf : p.WF) (h32b : 32 % p.bpfs = 0)
    (ws : WSlice) :
    p.sampWidth ∣ (decodeWords p.bps (wseg p.words ws)).length := by
  rw [decodeWords_length, vpw_eq_fspw_mul p hwf h32b]
  exact ⟨(wseg p.words ws).length * (32 / p.bpfs), by ring⟩

theorem rng_b_facts (p : VLBIPayloadBase) (hwf : p.WF) (hb32 : p.bpfs % 32 = 0)
    (s t : Int) (hs0 : 0 ≤ s) (ht0 : 0 ≤ t)
    (hsle : s ≤ (p.nsample : Int)) (htle : t ≤ (p.nsample : Int)) :
    p.sampWidth ∣ (decodeWords p.bps (wseg p.words
      (.rng (s * Int.ofNat (p.bpfs / 32)) (t * Int.ofNat (p.bpfs / 32))))).length ∧
    (decodeWords p.bps (wseg p.words
      (.rng (s * Int.ofNat (p.bpfs / 32)) (t * Int.ofNat (p.bpfs / 32))))).length
        / p.sampWidth = t.toNat - s.toNat := by
  have hprod := hwf.2.2.1
  have hw0 : p.sampWidth ≠ 0 := sampWidth_ne_zero p hprod
  have hlenb := words_len_b p hwf hb32
  have hww := sampWidth_eq_wpfs_mul p hwf hb32
  rw [int_ofNat_eq]
  have hW0 : (0 : Int) ≤ ((p.bpfs / 32 : Nat) : Int) := Int.ofNat_nonneg _
  have hcastlen : ((p.nsample : Int)) * ((p.bpfs / 32 : Nat) : Int) =
      (p.words.length : Int) := by
    rw [hlenb]
    push_cast
    ring
  have hsle' : s * ((p.bpfs / 32 : Nat) : Int) ≤ (p.words.length : Int) := by
    rw [← hcastlen]
    exact mul_le_mul_of_nonneg_right hsle hW0
  have htle' : t * ((p.bpfs / 32 : Nat) : Int) ≤ (p.words.length : Int) := by
    rw [← hcastlen]
    exact mul_le_mul_of_nonneg_right htle hW0
  have hbnds := WSlice_bounds_of_nonneg_le (s * ((p.bpfs / 32 : Nat) : Int))
    (t * ((p.bpfs / 32 : Nat) : Int)) p.words.length
    (mul_nonneg hs0 hW0) (mul_nonneg ht0 hW0) hsle' htle'
  have hseg : (wseg p.words (WSlice.rng (s * ((p.bpfs / 32 : Nat) : Int))
      (t * ((p.bpfs / 32 : Nat) : Int)))).length =
      (t.toNat - s.toNat) * (p.bpfs / 32) := by
    rw [wseg_length, hbnds]
    dsimp only
    rw [toNat_mul_nat s _ hs0, toNat_mul_nat t _ ht0, Nat.sub_mul]
  rw [decodeWords_length, hseg]
  constructor
  · exact ⟨t.toNat - s.toNat, by rw [hww]; ring⟩
  · rw [Nat.mul_assoc, ← hww, Nat.mul_div_cancel _ (Nat.pos_of_ne_zero hw0)]

theorem rng_c_count (p : VLBIPayloadBase) (hwf : p.WF) (h32b : 32 % p.bpfs = 0)
    (lo hi : Int) (h0 : 0 ≤ lo) (hlt : lo < (p.words.length : Int))
    (hhi : lo + 1 ≤ hi) :
    32 / p.bpfs ≤ (decodeWords p.bps (wseg p.words (.rng lo hi))).length
      / p.sampWidth := by
  have hprod := hwf.2.2.1
  have hw0 : p.sampWidth ≠ 0 := sampWidth_ne_zero p hprod
  have hveq := vpw_eq_fspw_mul p hwf h32b
  have hbnds := WSlice_bounds_of_nonneg lo hi p.words.length h0 (by omega)
  have hseg : (wseg p.words (WSlice.rng lo hi)).length =
      (min hi (p.words.length : Int)).toNat - lo.toNat := by
    rw [wseg_length, hbnds]
    dsimp only
    rw [min_eq_left (le_of_lt hlt)]
  have hge1 : 1 ≤ (min hi (p.words.length : Int)).toNat - lo.toNat := by
    omega
  rw [decodeWords_length, hseg, hveq, ← Nat.mul_assoc,
    Nat.mul_div_cancel _ (Nat.pos_of_ne_zero hw0)]
  calc 32 / p.bpfs = 1 * (32 / p.bpfs) := (Nat.one_mul _).symm
    _ ≤ ((min hi (p.words.length : Int)).toNat - lo.toNat) * (32 / p.bpfs) :=
      Nat.mul_le_mul_right _ hge1

theorem itemCore_int_resolve (p : VLBIPayloadBase) (hwf : p.WF)
    (hratio : p.bpfs % 32 = 0 ∨ 32 % p.bpfs = 0)
    (i : Int) (hi0 : 0 ≤ i) (hilt : i < (p.nsample : Int)) :
    ∃ ws o, p.itemCore false i (i + 1) none 1 = .ok (ws, .idx o) ∧
      p.sampWidth ∣ (decodeWords p.bps (wseg p.words ws)).length ∧ 0 ≤ o ∧
      o < (((decodeWords p.bps (wseg p.words ws)).length / p.sampWidth : Nat) : Int) := by
  have hnsw := nsample_mul_sampWidth p hwf
  have hprod := hwf.2.2.1
  have hbps0 := hwf.1
  have hw0 : p.sampWidth ≠ 0 := sampWidth_ne_zero p hprod
  have hbpfs0 : 0 < p.bpfs := by
    unfold VLBIPayloadBase.bpfs
    exact Nat.mul_pos hbps0 (Nat.pos_of_ne_zero hw0)
  by_cases hn : (1 : Int) = (p.nsample : Int)
  · refine ⟨.all, 0, ?_, all_dvd p hwf, le_refl 0, ?_⟩
    · unfold VLBIPayloadBase.itemCore
      rw [if_pos hn]
      rfl
    · rw [wseg_all, decodeWords_length, ← hnsw,
        Nat.mul_div_cancel _ (Nat.pos_of_ne_zero hw0)]
      omega
  · by_cases hb32 : p.bpfs % 32 = 0
    · refine ⟨.rng (i * Int.ofNat (p.bpfs / 32)) ((i + 1) * Int.ofNat (p.bpfs / 32)),
        0, ?_, (rng_b_facts p hwf hb32 i (i + 1) hi0 (by omega) (by omega) (by omega)).1,
        le_refl 0, ?_⟩
      · unfold VLBIPayloadBase.itemCore
        rw [if_neg hn, if_pos hb32]
        rfl
      · rw [(rng_b_facts p hwf hb32 i (i + 1) hi0 (by omega) (by omega) (by omega)).2]
        omega
    · have h32b : 32 % p.bpfs = 0 := hratio.resolve_left hb32
      have hF0 : 0 < 32 / p.bpfs :=
        Nat.div_pos (Nat.le_of_dvd (by norm_num) (Nat.dvd_of_mod_eq_zero h32b)) hbpfs0
      have hFI0 : (0 : Int) < Int.ofNat (32 / p.bpfs) := by
        rw [int_ofNat_eq]
        exact_mod_cast hF0
      have hlq := Int.fdiv_eq_ediv i (le_of_lt hFI0)
      have hlr := Int.fmod_eq_emod i (le_of_lt hFI0)
      have hnl := nsample_len_c p hwf h32b
      have hlolt : i.fdiv (Int.ofNat (32 / p.bpfs)) < (p.words.length : Int) := by
        rw [hlq, Int.ediv_lt_iff_lt_mul hFI0]
        calc i < (p.nsample : Int) := hilt
          _ = (p.words.length : Int) * Int.ofNat (32 / p.bpfs) := by
            rw [hnl, int_ofNat_eq]
            push_cast
            ring
      have hlo0 : 0 ≤ i.fdiv (Int.ofNat (32 / p.bpfs)) := by
        rw [hlq]
        exact Int.ediv_nonneg hi0 (le_of_lt hFI0)
      have hhige : i.fdiv (Int.ofNat (32 / p.bpfs)) + 1 ≤
          (if (i + 1).fmod (Int.ofNat (32 / p.bpfs)) ≠ 0
           then (i + 1).fdiv (Int.ofNat (32 / p.bpfs)) + 1
           else (i + 1).fdiv (Int.ofNat (32 / p.bpfs))) := by
        have hlq' := Int.fdiv_eq_ediv (i + 1) (le_of_lt hFI0)
        have hlr' := Int.fmod_eq_emod (i + 1) (le_of_lt hFI0)
        have hmono : i.fdiv (Int.ofNat (32 / p.bpfs)) ≤
            (i + 1).fdiv (Int.ofNat (32 / p.bpfs)) := by
          rw [hlq, hlq']
          exact Int.ediv_le_ediv hFI0 (by omega)
        by_cases hs : (i + 1).fmod (Int.ofNat (32 / p.bpfs)) ≠ 0
        · rw [if_pos hs]
          omega
        · rw [if_neg hs]
          push_neg at hs
          rw [hlr'] at hs
          have hde := Int.ediv_add_emod (i + 1) (Int.ofNat (32 / p.bpfs))
          have hde0 := Int.ediv_add_emod i (Int.ofNat (32 / p.bpfs))
          have hr0 := Int.emod_nonneg i (ne_of_gt hFI0)
          rw [hs, add_zero] at hde
          have hlt2 : Int.ofNat (32 / p.bpfs) * (i / Int.ofNat (32 / p.bpfs)) <
              Int.ofNat (32 / p.bpfs) * ((i + 1) / Int.ofNat (32 / p.bpfs)) := by
            omega
          have := lt_of_mul_lt_mul_left hlt2 (le_of_lt hFI0)
          rw [hlq, hlq']
          omega
      have hcnt := rng_c_count p hwf h32b (i.fdiv (Int.ofNat (32 / p.bpfs)))
        (if (i + 1).fmod (Int.ofNat (32 / p.bpfs)) ≠ 0
         then (i + 1).fdiv (Int.ofNat (32 / p.bpfs)) + 1
         else (i + 1).fdiv (Int.ofNat (32 / p.bpfs))) hlo0 hlolt hhige
      refine ⟨.rng (i.fdiv (Int.ofNat (32 / p.bpfs)))
          (if (i + 1).fmod (Int.ofNat (32 / p.bpfs)) ≠ 0
           then (i + 1).fdiv (Int.ofNat (32 / p.bpfs)) + 1
           else (i + 1).fdiv (Int.ofNat (32 / p.bpfs))),
        i.fmod (Int.ofNat (32 / p.bpfs)), ?_, rng_c_dvd p hwf h32b _, ?_, ?_⟩
      · unfold VLBIPayloadBase.itemCore
        rw [if_neg hn, if_neg hb32, if_pos h32b]
        rfl
      · rw [hlr]
        exact Int.emod_nonneg i (ne_of_gt hFI0)
      · have hstep1 : i.fmod (Int.ofNat (32 / p.bpfs)) < Int.ofNat (32 / p.bpfs) := by
          rw [hlr]
          exact Int.emod_lt_of_pos i hFI0
        have hstep2 : Int.ofNat (32 / p.bpfs) ≤
            (((decodeWords p.bps (wseg p.words
              (WSlice.rng (i.fdiv (Int.ofNat (32 / p.bpfs)))
                (if (i + 1).fmod (Int.ofNat (32 / p.bpfs)) ≠ 0
                 then (i + 1).fdiv (Int.ofNat (32 / p.bpfs)) + 1
                 else (i + 1).fdiv (Int.ofNat (32 / p.bpfs)))))).length /
                  p.sampWidth : Nat) : Int) := by
          rw [int_ofNat_eq]
          exact_mod_cast hcnt
        exact lt_of_lt_of_le hstep1 hstep2

theorem itemCore_slc_resolve (p : VLBIPayloadBase) (hwf : p.WF)
    (hratio : p.bpfs % 32 = 0 ∨ 32 % p.bpfs = 0)
    (start stop : Int) (stepO : Option Int)
    (hs0 : 0 ≤ start) (hsle : start ≤ (p.nsample : Int))
    (ht0 : 0 ≤ stop) (htle : stop ≤ (p.nsample : Int))
    (hstepO : 0 < stepO.getD 1) :
    ∃ ws a' b' c',
      p.itemCore true start stop stepO (stop - start) = .ok (ws, .slc a' b' c') ∧
      0 < c'.getD 1 ∧
      p.sampWidth ∣ (decodeWords p.bps (wseg p.words ws)).length := by
  by_cases hn : stop - start = (p.nsample : Int)
  · refine ⟨.all, none, none, stepO, ?_, hstepO, all_dvd p hwf⟩
    unfold VLBIPayloadBase.itemCore
    rw [if_pos hn]
    rfl
  · by_cases hb32 : p.bpfs % 32 = 0
    · refine ⟨.rng (start * Int.ofNat (p.bpfs / 32)) (stop * Int.ofNat (p.bpfs / 32)),
        none, none, stepO, ?_, hstepO,
        (rng_b_facts p hwf hb32 start stop hs0 ht0 hsle htle).1⟩
      unfold VLBIPayloadBase.itemCore
      rw [if_neg hn, if_pos hb32]
      rfl
    · have h32b : 32 % p.bpfs = 0 := hratio.resolve_left hb32
      refine ⟨.rng (start.fdiv (Int.ofNat (32 / p.bpfs)))
          (if stop.fmod (Int.ofNat (32 / p.bpfs)) ≠ 0
           then stop.fdiv (Int.ofNat (32 / p.bpfs)) + 1
           else stop.fdiv (Int.ofNat (32 / p.bpfs))),
        (if start.fmod (Int.ofNat (32 / p.bpfs)) ≠ 0
         then some (start.fmod (Int.ofNat (32 / p.bpfs))) else none),
        (if stop.fmod (Int.ofNat (32 / p.bpfs)) ≠ 0
         then some (start.fmod (Int.ofNat (32 / p.bpfs)) + (stop - start)) else none),
        stepO, ?_, hstepO, rng_c_dvd p hwf h32b _⟩
      unfold VLBIPayloadBase.itemCore
      rw [if_neg hn, if_neg hb32, if_pos h32b]
      rfl

/-- C4 as amended: for every well-formed payload of a workable format (bits
per full sample a multiple or divisor of the word width), writing an array of
representable codes with exactly the shape of the selected item succeeds,
reading the item back returns the written array, and writing back the
original item value restores a payload `==`-equal to the pre-mutation one —
provided the item is the full item, an integer, or a slice of positive step;
negative-step slices, though a supported index form, instead fail, as the
counterexample shows. -/
theorem spec_C4_amended_set_get_restore (p : VLBIPayloadBase) (hwf : p.WF)
    (hratio : p.bpfs % 32 = 0 ∨ 32 % p.bpfs = 0)
    (item : PyIdx)
    (hform : item = .tup [] ∨ (∃ i0, item = .int i0) ∨
      (∃ a b c, item = .slc a b c ∧ 0 < c.getD 1))
    (x old : NDArr)
    (hold : p.getItem item = .ok old)
    (hxs : x.shape = old.shape) (hxc : x.isC = old.isC)
    (hxl : x.flat.length = old.flat.length)
    (hxv : ∀ v ∈ x.flat, v < 2 ^ p.bps) :
    ∃ p', p.setItem item x = .ok p' ∧ p'.getItem item = .ok x ∧
      ∃ p'', p'.setItem item old = .ok p'' ∧ p''.pyEq p = true := by
  rcases hform with hfull | ⟨i0, hint⟩ | ⟨a, b, c, hslc, hstep⟩
  · exact engine_full p item hwf (Or.inl hfull) x old hold hxs hxc hxl hxv
  · subst hint
    have hnotfull : ¬((PyIdx.int i0) = .tup [] ∨
        (PyIdx.int i0) = .slc none none none) := by
      rintro (h | h) <;> exact PyIdx.noConfusion h
    by_cases hg : 0 ≤ (if i0 < 0 then i0 + (p.nsample : Int) else i0) ∧
        (if i0 < 0 then i0 + (p.nsample : Int) else i0) < (p.nsample : Int)
    · obtain ⟨ws, o, hcore, hdvd, ho0, holt⟩ :=
        itemCore_int_resolve p hwf hratio _ hg.1 hg.2
      have hres : p.itemToSlices (.int i0) = .ok (ws, .idx o) := by
        simp only [VLBIPayloadBase.itemToSlices]
        rw [if_neg (not_not_intro hg)]
        exact hcore
      exact engine_idx p (.int i0) hwf ws o hnotfull hres hdvd ho0 holt
        x old hold hxs hxc hxl hxv
    · exfalso
      have herr : p.itemToSlices (.int i0) =
          .error (.indexError "index out of range") := by
        simp only [VLBIPayloadBase.itemToSlices]
        rw [if_pos hg]
      have hgerr : p.getItem (.int i0) =
          .error (.indexError "index out of range") := by
        unfold VLBIPayloadBase.getItem
        rw [if_neg hnotfull, herr]
      rw [hgerr] at hold
      exact Except.noConfusion hold
  · subst hslc
    have hc0 : ¬c = some 0 := by
      intro h
      rw [h] at hstep
      simp at hstep
    by_cases hfull : a = none ∧ b = none ∧ c = none
    · obtain ⟨ha, hb, hc⟩ := hfull
      subst ha
      subst hb
      subst hc
      exact engine_full p _ hwf (Or.inr rfl) x old hold hxs hxc hxl hxv
    · have hnotfull : ¬((PyIdx.slc a b c) = .tup [] ∨
          (PyIdx.slc a b c) = .slc none none none) := by
        rintro (h | h)
        · exact PyIdx.noConfusion h
        · injection h with h1 h2 h3
          exact hfull ⟨h1, h2, h3⟩
      obtain ⟨hr10, hr1le, hr20, hr2le, hr3⟩ :=
        sliceIndices_pos_bounds a b c p.nsample hstep
      have hstepO : 0 < (if (sliceIndices a b c p.nsample).2.2 = 1
          then (none : Option Int)
          else some (sliceIndices a b c p.nsample).2.2).getD 1 := by
        by_cases h1 : (sliceIndices a b c p.nsample).2.2 = 1
        · rw [if_pos h1]
          norm_num
        · rw [if_neg h1]
          rw [show (some (sliceIndices a b c p.nsample).2.2).getD 1 =
            (sliceIndices a b c p.nsample).2.2 from rfl, hr3]
          exact hstep
      obtain ⟨ws, a', b', c', hcore, hstep', hdvd⟩ :=
        itemCore_slc_resolve p hwf hratio (sliceIndices a b c p.nsample).1
          (sliceIndices a b c p.nsample).2.1 _ hr10 hr1le hr20 hr2le hstepO
      have hres : p.itemToSlices (.slc a b c) = .ok (ws, .slc a' b' c') := by
        simp only [VLBIPayloadBase.itemToSlices]
        rw [if_neg hc0]
        exact hcore
      exact engine_slc p _ hwf ws a' b' c' hnotfull hres hstep' hdvd
        x old hold hxs hxc hxl hxv

/-- C4 counterexample: on the 8-bit test payload (full decoded shape
`(4, 2)`), the negative-step slice `[::-1]` is a supported index form and a
`(4, 2)` array of representable values is the right shape for it, yet the
assignment raises ValueError instead of writing the data (the minimal-word
computation degenerates to an empty word range), so the set-get-restore round
trip fails for it. -/
theorem spec_C4_counterexample :
    payloadTest8.getItem (.tup []) =
      .ok ⟨[4, 2], false, [120, 86, 52, 18, 0, 0, 255, 255]⟩ ∧
    payloadTest8.setItem (.slc none none (some (-1)))
        ⟨[4, 2], false, [1, 2, 3, 4, 5, 6, 7, 8]⟩ =
      .error (.valueError "could not broadcast input array") := by
  constructor
  · decide
  · decide

/-- C4 witness: writing `[7, 9]` at integer index 1 of the 8-bit test
payload, reading it back, and restoring the original sample `[52, 18]`
returns the payload to `==`-equality. -/
theorem spec_C4_witness :
    ∃ p', payloadTest8.setItem (.int 1) ⟨[2], false, [7, 9]⟩ = .ok p' ∧
      p'.getItem (.int 1) = .ok ⟨[2], false, [7, 9]⟩ ∧
      ∃ p'', p'.setItem (.int 1) ⟨[2], false, [52, 18]⟩ = .ok p'' ∧
        p''.pyEq payloadTest8 = true :=
  spec_C4_amended_set_get_restore payloadTest8
    (by unfold VLBIPayloadBase.WF; decide) (by decide) (.int 1)
    (Or.inr (Or.inl ⟨1, rfl⟩)) ⟨[2], false, [7, 9]⟩ ⟨[2], false, [52, 18]⟩
    (by decide) (by decide) (by decide) (by decide) (by decide)

/-- C6 counterexample: a `fromdata(..., valid=False)` payload has every word
equal to `0x11223344` (as the repository's `test_frame` asserts), which is
not the all-bits-set pattern `0xffffffff` the claim states. -/
theorem spec_C6_counterexample :
    m5bFromdataPayloadWords [0, 0] false = [0x11223344, 0x11223344] ∧
    ¬(∀ w ∈ m5bFromdataPayloadWords [0, 0] false, w = 0xffffffff) := by
  constructor
  · rfl
  · decide

/-- C6 as amended: `fromdata` with `valid=False` overwrites every payload
word at construction time with the fixed invalid pattern `0x11223344` (not
all bits set). -/
theorem spec_C6_amended_fill_pattern (encoded : List Nat) (valid : Bool)
    (hv : valid = false) :
    m5bFromdataPayloadWords encoded valid =
      List.replicate encoded.length 0x11223344 := by
  subst hv
  rfl

/-- C6 witness: a three-word payload built with `valid=False` has all words
equal to `0x11223344`. -/
theorem spec_C6_witness :
    m5bFromdataPayloadWords [1, 2, 3] false = [0x11223344, 0x11223344, 0x11223344] :=
  (spec_C6_amended_fill_pattern [1, 2, 3] false rfl).trans (by rfl)

/-- C9: with a zero fractional-second field and no frame rate, `get_time`
returns the integer-second timestamp exactly when the frame number is zero
and raises ValueError for every other frame number; and with a rate supplied,
frame number zero also yields the integer second. -/
theorem spec_C9_get_time_no_rate (intSec frameNr : Nat) (r : ℚ) :
    m5bGetTime intSec 0 none frameNr =
      (if frameNr = 0 then .ok ((intSec : ℚ))
       else .error (.valueError "cannot calculate time without frame rate")) ∧
    m5bGetTime intSec 0 (some r) 0 = .ok ((intSec : ℚ)) := by
  constructor
  · unfold m5bGetTime
    simp
  · unfold m5bGetTime
    simp

theorem m5bHeaderWords_length (m : M5BMeta) (k : Nat) :
    (m5bHeaderWords m k).length = 4 := rfl

theorem wordsToBytes_length (ws : List Nat) :
    (wordsToBytes ws).length = ws.length * 4 := by
  unfold wordsToBytes
  rw [flatten_uniform_length _ 4 ?huni, List.length_map]
  case huni =>
    intro r hr
    rcases List.mem_map.mp hr with ⟨w, _, hw⟩
    rw [← hw]
    exact digitsBase_length 256 4 w

theorem wordsToBytes_append (a b : List Nat) :
    wordsToBytes (a ++ b) = wordsToBytes a ++ wordsToBytes b := by
  unfold wordsToBytes
  rw [List.map_append, List.flatten_append]

theorem bytesToWords_wordsToBytes (ws : List Nat) (h : ∀ w ∈ ws, w < 2 ^ 32) :
    bytesToWords (wordsToBytes ws) = ws := by
  unfold bytesToWords wordsToBytes
  rw [chunkList_flatten_uniform 4 (by norm_num) _ ?huni, List.map_map]
  case huni =>
    intro r hr
    rcases List.mem_map.mp hr with ⟨w, _, hw⟩
    rw [← hw]
    exact digitsBase_length 256 4 w
  have hmap : ∀ w ∈ ws, (undigitsBase 256 ∘ digitsBase 256 4) w = id w := by
    intro w hw
    have hlt : w < 256 ^ 4 := by
      have := h w hw
      norm_num
      omega
    simpa using undigitsBase_digitsBase 256 4 w hlt
  rw [List.map_congr_left hmap, List.map_id]

theorem m5bCode_lut (c : Nat) (h : c < 4) : m5bCode (m5bLut2 c) = c := by
  interval_cases c <;> decide

theorem m5bEncode_decode (ws : List Nat) (h : ∀ w ∈ ws, w < 2 ^ 32) :
    m5bEncodeSamples (m5bDecodeFrame ws) = .ok ws := by
  unfold m5bEncodeSamples m5bDecodeFrame
  rw [List.map_map]
  have hmap : ∀ c ∈ decodeWords 2 ws, (m5bCode ∘ m5bLut2) c = id c := by
    intro c hc
    have := mem_decodeWords_lt 2 ws c hc
    simpa using m5bCode_lut c (by norm_num at this; omega)
  rw [List.map_congr_left hmap, List.map_id]
  exact encodeToWords_decodeWords 2 (by norm_num) (by norm_num) ws h

theorem m5bDecodeFrame_length (ws : List Nat) :
    (m5bDecodeFrame ws).length = ws.length * 16 := by
  unfold m5bDecodeFrame
  rw [List.length_map, decodeWords_length]

theorem m5bParse_frames (m : M5BMeta) (W : Nat) (k : Nat)
    (payloads : List (List Nat)) (hlen : ∀ pw ∈ payloads, pw.length = W)
    (hval : ∀ pw ∈ payloads, ∀ w ∈ pw, w < 2 ^ 32) :
    m5bParsePayloads W (m5bFrames m k payloads) = payloads := by
  induction payloads generalizing k with
  | nil => rfl
  | cons pw rest ih =>
    have hpw : pw.length = W := hlen pw (List.mem_cons_self pw rest)
    have hblock : (wordsToBytes (m5bHeaderWords m k ++ pw)).length = 4 * (4 + W) := by
      rw [wordsToBytes_length, List.length_append, m5bHeaderWords_length, hpw]
      ring
    unfold m5bFrames m5bParsePayloads
    have hne : wordsToBytes (m5bHeaderWords m k ++ pw) ++ m5bFrames m (k + 1) rest ≠ [] := by
      intro hcontra
      rcases List.append_eq_nil.mp hcontra with ⟨h1, _⟩
      rw [h1] at hblock
      simp at hblock
    rw [chunkList_of_ne_nil _ (by omega) _ hne,
      take_len_append _ _ _ hblock, drop_len_append _ _ _ hblock,
      List.map_cons]
    have hhead : bytesToWords ((wordsToBytes (m5bHeaderWords m k ++ pw)).drop 16) = pw := by
      rw [wordsToBytes_append,
        drop_len_append 16 _ _ (by rw [wordsToBytes_length, m5bHeaderWords_length])]
      exact bytesToWords_wordsToBytes pw (hval pw (List.mem_cons_self pw rest))
    rw [hhead]
    have htail := ih (k + 1) (fun x hx => hlen x (List.mem_cons_of_mem pw hx))
      (fun x hx => hval x (List.mem_cons_of_mem pw hx))
    unfold m5bParsePayloads at htail
    rw [htail]

theorem m5bWrite_frames (m : M5BMeta) (k : Nat) (payloads : List (List Nat))
    (hval : ∀ pw ∈ payloads, ∀ w ∈ pw, w < 2 ^ 32) :
    m5bWriteFrames m k (payloads.map m5bDecodeFrame) = .ok (m5bFrames m k payloads) := by
  induction payloads generalizing k with
  | nil => rfl
  | cons pw rest ih =>
    rw [List.map_cons]
    unfold m5bWriteFrames m5bFrames
    rw [m5bEncode_decode pw (hval pw (List.mem_cons_self pw rest))]
    dsimp only
    rw [ih (k + 1) (fun x hx => hval x (List.mem_cons_of_mem pw hx))]

/-- C1: Mark5B stream byte round trip — for a conformant file of consecutive
frames with a fixed payload size, built from any metadata and representable
payload words, decoding the whole stream and writing the samples back
through the writer with the same metadata reproduces the original file bytes
exactly. -/
theorem spec_C1_stream_roundtrip (m : M5BMeta) (W : Nat) (hW : 0 < W)
    (payloads : List (List Nat))
    (hlen : ∀ pw ∈ payloads, pw.length = W)
    (hval : ∀ pw ∈ payloads, ∀ w ∈ pw, w < 2 ^ 32) :
    m5bWriteStream m W (m5bReadStreamBytes W (m5bFrames m 0 payloads)) =
      .ok (m5bFrames m 0 payloads) := by
  unfold m5bWriteStream m5bReadStreamBytes
  rw [m5bParse_frames m W 0 payloads hlen hval]
  have hchunk : chunkList (16 * W) ((payloads.map m5bDecodeFrame).flatten) =
      payloads.map m5bDecodeFrame := by
    refine chunkList_flatten_uniform (16 * W) (by omega) _ ?_
    intro r hr
    rcases List.mem_map.mp hr with ⟨pw, hpw, hr2⟩
    rw [← hr2, m5bDecodeFrame_length, hlen pw hpw]
    ring
  rw [hchunk]
  exact m5bWrite_frames m 0 payloads hval

/-- C1 witness: a concrete two-frame file (one payload word per frame)
round-trips byte-for-byte. -/
theorem spec_C1_witness :
    m5bWriteStream ⟨123, 3500, 10, true, 5, 5000⟩ 1
        (m5bReadStreamBytes 1 (m5bFrames ⟨123, 3500, 10, true, 5, 5000⟩ 0
          [[0x12345678], [0xABCDEF01]])) =
      .ok (m5bFrames ⟨123, 3500, 10, true, 5, 5000⟩ 0 [[0x12345678], [0xABCDEF01]]) :=
  spec_C1_stream_roundtrip ⟨123, 3500, 10, true, 5, 5000⟩ 1 (by decide)
    [[0x12345678], [0xABCDEF01]] (by decide) (by decide)
